import Mathlib

/-!
Verification development for the s3du hierarchical streaming aggregation engine
(`src/s3du/__init__.py`).  The Python code is shallowly embedded: Python `str`
values (object keys) become `List Char`, Python `int` becomes `Int`, timestamps
become `Int`, Python dicts become association lists, and the one piece of
genuinely stateful sharing in the source — the class-level default argument
`breakdown={}` of `Prefix.__init__`, a single dict object aliased by every
blank accumulator — is embedded with an explicit store of dicts addressed by
index, the shared default living at index 0.
-/

namespace S3du

/-! ### Python string primitives (single-character separator, as used by the code) -/

/-- Python `s.split(sep)` for a one-character separator: `"".split` is `[""]`,
separators at the ends produce empty segments. -/
def pySplit (sep : Char) : List Char → List (List Char)
  | [] => [[]]
  | c :: rest =>
    match pySplit sep rest with
    | [] => [[]]
    | h :: t => if c = sep then [] :: h :: t else (c :: h) :: t

/-- Python `s.lstrip(sep)` for a one-character strip set. -/
def pyLstrip (sep : Char) (s : List Char) : List Char :=
  s.dropWhile (fun c => c = sep)

/-- Python `s.rstrip(sep)` for a one-character strip set. -/
def pyRstrip (sep : Char) (s : List Char) : List Char :=
  ((s.reverse).dropWhile (fun c => c = sep)).reverse

/-- Python `s.rsplit(sep, maxsplit=1)`: one element if `sep` does not occur,
otherwise the parts before and after the last occurrence. -/
def pyRsplit1 (sep : Char) (s : List Char) : List (List Char) :=
  let r := s.reverse
  match r.dropWhile (fun c => ¬ c = sep) with
  | [] => [s]
  | _ :: rest2 => [rest2.reverse, (r.takeWhile (fun c => ¬ c = sep)).reverse]

/-! ### Dicts and the store of dicts

`Dict` models a Python dict from storage-class name to byte count (insertion
ordered, unique keys when built by `dset`).  `Store` models the heap of dict
objects; a `Prefix` holds an index into it.  Index 0 is the dict created once
for the default argument `breakdown={}` in `Prefix.__init__` — every blank
`Prefix(key=...)` aliases it. -/

abbrev Tier := String

abbrev Dict := List (Tier × Int)

/-- Python `d.get(k, 0)`. -/
def dget (d : Dict) (k : Tier) : Int :=
  match d with
  | [] => 0
  | (k2, v) :: rest => if k2 = k then v else dget rest k

/-- Python `d[k] = v`: update in place if present, else append. -/
def dset (d : Dict) (k : Tier) (v : Int) : Dict :=
  match d with
  | [] => [(k, v)]
  | (k2, v2) :: rest => if k2 = k then (k2, v) :: rest else (k2, v2) :: dset rest k v

def dkeys (d : Dict) : List Tier := d.map Prod.fst

abbrev Store := List Dict

/-- Read the dict object at reference `i`. -/
def sget (s : Store) (i : Nat) : Dict := (s.get? i).getD []

/-- Overwrite the dict object at reference `i`. -/
def sset (s : Store) (i : Nat) (d : Dict) : Store := s.set i d

/-! ### The Prefix class (`class Prefix` in the source) -/

/-- One `Prefix` object: `number_objects`, `size`, `oldest`, `newest`, `key`
exactly as in `__slots__`; `bd` is the reference to its `breakdown` dict in
the store. -/
structure Prefix where
  number_objects : Int
  size : Int
  oldest : Int
  newest : Int
  key : List Char
  bd : Nat
deriving DecidableEq, Repr

def Prefix.dummy : Prefix := ⟨0, 0, 0, 0, [], 0⟩

/-- `Prefix(key=k)` through the default arguments: zero counts,
`oldest = datetime.now()` as evaluated once at import time (`now0`),
`newest =` the 1990-01-01 epoch constant (`ep1990`), and the shared default
`breakdown` dict at store index 0. -/
def Prefix.blank (now0 ep1990 : Int) (key : List Char) : Prefix :=
  ⟨0, 0, now0, ep1990, key, 0⟩

/-- An S3 listing record as passed to `Prefix(data=...)` / `Prefix.count`. -/
structure S3Object where
  okey : List Char
  osize : Int
  lastModified : Int
  storageClass : Tier
deriving DecidableEq, Repr

/-- `Prefix(data=obj)`: a fresh single-record accumulator with a freshly
allocated `{StorageClass: Size}` breakdown dict. -/
def Prefix.fromData (store : Store) (d : S3Object) : Store × Prefix :=
  (store ++ [[(d.storageClass, d.osize)]],
   ⟨1, d.osize, d.lastModified, d.lastModified, d.okey, store.length⟩)

/-- `Prefix.count(data)`: fold one raw record into the accumulator, mutating
its breakdown dict in the store. -/
def Prefix.countObj (store : Store) (p : Prefix) (d : S3Object) : Store × Prefix :=
  let dict := sget store p.bd
  (sset store p.bd (dset dict d.storageClass (dget dict d.storageClass + d.osize)),
   { p with
      number_objects := p.number_objects + 1
      size := p.size + d.osize
      oldest := min p.oldest d.lastModified
      newest := max p.newest d.lastModified })

/-- The loop body of `Prefix.__add__` over the precomputed union of tier keys:
`self.breakdown[t] = self.breakdown.get(t,0) + other.breakdown.get(t,0)`,
reading both dicts live from the store so that aliasing (`self.bd = other.bd`)
behaves as in Python. -/
def addLoop (store : Store) (selfRef otherRef : Nat) : List Tier → Store
  | [] => store
  | t :: ts =>
    let v := dget (sget store selfRef) t + dget (sget store otherRef) t
    addLoop (sset store selfRef (dset (sget store selfRef) t v)) selfRef otherRef ts

/-- `Prefix.__add__`: sums counts and sizes, takes min/max of the extrema,
merges the breakdown dicts in place (the key set is computed before the loop,
as Python evaluates `set(...).union(...)` first), returns `self`.  The union
iteration order of a Python set is unspecified; the model fixes self-keys
first then new other-keys, which determines only insertion order of new keys,
not any value. -/
def prefixAdd (store : Store) (self other : Prefix) : Store × Prefix :=
  let d1 := sget store self.bd
  let d2 := sget store other.bd
  let keys := dkeys d1 ++ (dkeys d2).filter (fun k => ¬ (dkeys d1).contains k)
  (addLoop store self.bd other.bd keys,
   { self with
      number_objects := self.number_objects + other.number_objects
      size := self.size + other.size
      oldest := min self.oldest other.oldest
      newest := max self.newest other.newest })

/-- The value content of `__add__` on the plain (non-dict) fields: count and
size add, extrema combine by min/max, the path is the left operand's. -/
def addVals (a b : Prefix) : Prefix :=
  { a with
      number_objects := a.number_objects + b.number_objects
      size := a.size + b.size
      oldest := min a.oldest b.oldest
      newest := max a.newest b.newest }

/-- The breakdown merge of `__add__` as a pure value operation on two distinct
dicts (no aliasing): pointwise sum over the union of keys. -/
def dmergeVals (d1 d2 : Dict) : Dict :=
  d1.map (fun kv => (kv.1, kv.2 + dget d2 kv.1)) ++
    d2.filter (fun kv => ¬ (dkeys d1).contains kv.1)

/-- `Prefix.compare(other, depth, separator)`: truncated-directory equality.
Splits both keys, drops the final (file-name) component, and compares the
remaining segment lists truncated at `depth` (`depth = 0` always matches,
negative depth compares untruncated). -/
def cmpP (self other : Prefix) (depth : Int) (sep : Char) : Bool :=
  let l := (pySplit sep self.key).dropLast
  let r := (pySplit sep other.key).dropLast
  if depth = 0 then true
  else if 0 < depth then
    decide (l.take (min l.length depth.toNat) = r.take (min r.length depth.toNat))
  else decide (l = r)

/-- `Prefix.depth(separator)`: number of segments of the key with trailing
separators stripped. -/
def Prefix.pdepth (p : Prefix) (sep : Char) : Int :=
  ((pySplit sep (pyRstrip sep p.key)).length : Int)

/-! ### The S3Counter engine -/

/-- One line of console output: either a `report` of a counter (its numbers,
its key with `'' ↦ '.'` applied, and a snapshot of its breakdown dict), or the
`report_omission` marker naming the top-of-stack key. -/
inductive Event where
  | rep (number_objects size oldest newest : Int) (key : List Char) (breakdown : Dict)
  | omission (key : List Char)
deriving DecidableEq, Repr

/-- The engine state.  `baseKey` is the source's `self.prefix` constructor
argument (renamed here); `now0`/`ep1990` carry the import-time-evaluated
default timestamps used whenever a blank `Prefix` is created; `log` records
every report in order of emission. -/
structure S3Counter where
  separator : Char
  baseKey : List Char
  depth : Int
  limit : Int
  counters : List Prefix
  reports_at_depth : Int
  store : Store
  now0 : Int
  ep1990 : Int
  log : List Event
deriving DecidableEq, Repr

/-- `S3Counter.__init__`: one root counter on the stack, display counter zero.
`store0` is the current heap of dicts; its cell 0 is the shared default
breakdown dict (empty in a fresh process). -/
def S3Counter.init (sep : Char) (base : List Char) (depth limit now0 ep1990 : Int)
    (store0 : Store) : S3Counter :=
  ⟨sep, base, depth, limit, [Prefix.blank now0 ep1990 base], 0, store0, now0, ep1990, []⟩

/-- `S3Counter.report(counter)`: logs the counter's numbers, its key with the
`'' ↦ '.'` substitution, and the current contents of its breakdown dict.
(The source mutates `counter.key` to `'.'`; the mutated object is never read
again at any call site, so the substitution is logged rather than stored.) -/
def reportEv (st : S3Counter) (c : Prefix) : S3Counter :=
  let k := if c.key = [] then ['.'] else c.key
  { st with log := st.log ++ [Event.rep c.number_objects c.size c.oldest c.newest k (sget st.store c.bd)] }

/-- `S3Counter.report_omission()`: logs the marker with the top-of-stack key.
Only ever called with a non-empty stack. -/
def reportOmission (st : S3Counter) : S3Counter :=
  { st with log := st.log ++ [Event.omission ((st.counters.getLast?).getD Prefix.dummy).key] }

/-- `S3Counter._pop_counter()`: pop the top counter, merge it into the new top
if one remains (`__add__`, which also mutates the shared breakdown dict), then
report it.  The report happens after the merge, as in the source.  On an empty
stack Python would raise; every call site guards non-emptiness, and the model
returns the state unchanged in that unreachable branch. -/
def popCounter (st : S3Counter) : S3Counter :=
  match st.counters.getLast? with
  | none => st
  | some counter =>
    let rest := st.counters.dropLast
    match rest.getLast? with
    | none => reportEv { st with counters := rest } counter
    | some parent =>
      let sm := prefixAdd st.store parent counter
      reportEv { st with counters := rest.dropLast ++ [sm.2], store := sm.1 } counter

/-- The loop `while len(self.counters) > target: self._pop_counter()`, written
with fuel; each pop shortens the stack by one, so fuel equal to the stack
length always suffices (`popLoop_congr` below recovers the while-loop
equation). -/
def popLoop : Nat → S3Counter → Nat → S3Counter
  | 0, st, _ => st
  | fuel + 1, st, target =>
    if target < st.counters.length then popLoop fuel (popCounter st) target else st

def popUntilLen (st : S3Counter) (target : Nat) : S3Counter :=
  popLoop st.counters.length st target

/-- One iteration of the `for index, prefix_part in enumerate(prefix_parts)`
loop of `_set_prefix`, at stack index `ci = index + 1` with the already
extended `prefix_increment` `pi2`: pop every deeper entry when the stack
diverges at this level, then push a blank counter when this level is missing,
resetting `reports_at_depth` in both branches. -/
def spStep (st : S3Counter) (pi2 : List Char) (ci : Nat) : S3Counter :=
  let st1 :=
    if ci < st.counters.length ∧ ¬ ((st.counters.getD ci Prefix.dummy).key = pi2) then
      popUntilLen { st with reports_at_depth := 0 } ci
    else st
  if st1.counters.length ≤ ci then
    { st1 with
        reports_at_depth := 0
        counters := st1.counters ++ [Prefix.blank st1.now0 st1.ep1990 pi2] }
  else st1

/-- The whole enumerate-loop of `_set_prefix`, threading the growing
`prefix_increment`. -/
def spLoop (st : S3Counter) (pi : List Char) (idx : Nat) : List (List Char) → S3Counter
  | [] => st
  | part :: rest =>
    spLoop (spStep st (pi ++ part ++ [st.separator]) (idx + 1))
      (pi ++ part ++ [st.separator]) (idx + 1) rest

/-- The segment list computed at the top of `_set_prefix`:
`prefix_dir = (sep + key.lstrip(sep)).rsplit(sep, 1)[0]`, then
`prefix_dir.split(sep)[1 : min(depth + 1, len(parts))]` with Python slice
semantics (a negative bound counts from the end). -/
def spParts (sep : Char) (depth : Int) (key : List Char) : List (List Char) :=
  let pd := (pyRsplit1 sep (sep :: pyLstrip sep key)).headD []
  let parts0 := pySplit sep pd
  let b : Int := min (depth + 1) (parts0.length : Int)
  let bc : Int := if b < 0 then b + (parts0.length : Int) else b
  (parts0.take bc.toNat).drop 1

/-- `S3Counter._set_prefix(key)`, modelled as `setPfx`: run the
enumerate-loop over the truncated segments, then pop the stack down to
`len(prefix_parts) + 1`. -/
def setPfx (st : S3Counter) (key : List Char) : S3Counter :=
  let parts := spParts st.separator st.depth key
  popUntilLen (spLoop st [] 0 parts) (parts.length + 1)

/-- `S3Counter.finalise()`: `while self.counters: self._pop_counter()`. -/
def finalise (st : S3Counter) : S3Counter := popUntilLen st 0

/-- `self.counters[-1] = self.counters[-1] + data_object`.  (`__add__` mutates
and returns its left operand; the assignment rebinds the same slot.)  Call
sites guarantee a non-empty stack. -/
def addTop (st : S3Counter) (d : Prefix) : S3Counter :=
  match st.counters.getLast? with
  | none => st
  | some top =>
    let sm := prefixAdd st.store top d
    { st with counters := st.counters.dropLast ++ [sm.2], store := sm.1 }

/-- The fast bulk fold: `for data_object in data_list: counters[-1] += ...`. -/
def fastAdd (st : S3Counter) (l : List Prefix) : S3Counter :=
  l.foldl addTop st

def topOf (st : S3Counter) : Prefix := (st.counters.getLast?).getD Prefix.dummy

/-- The leaf-display tail of one slow-path iteration (lines 219-223): if the
display counter is below the limit and the record itself is no deeper than
the rollup depth, report the record and bump the counter, emitting the
omission marker the moment the counter reaches the limit. -/
def slowLeafRep (st2 : S3Counter) (d : Prefix) : S3Counter :=
  if st2.reports_at_depth < st2.limit ∧ d.pdepth st2.separator ≤ st2.depth then
    let sr : S3Counter := { (reportEv st2 d) with reports_at_depth := st2.reports_at_depth + 1 }
    if sr.reports_at_depth = sr.limit then reportOmission sr else sr
  else st2

/-- One iteration of the small-batch per-record loop of `count_list`
(lines 214-223): realign if the record's context diverges, fold it into the
top counter, then run the leaf-display tail. -/
def slowStep (st : S3Counter) (d : Prefix) : S3Counter :=
  let st1 := if cmpP (topOf st) d st.depth st.separator then st else setPfx st d.key
  slowLeafRep (addTop st1 d) d

/-- The small-batch per-record loop of `count_list`. -/
def slowRecs (st : S3Counter) : List Prefix → S3Counter
  | [] => st
  | d :: ds => slowRecs (slowStep st d) ds

/-- `S3Counter.count_list(data_list)`, with fuel for the divide-and-conquer
bisection (both halves are strictly shorter, so fuel equal to the list length
suffices; `clAux_congr` below shows fuel irrelevance).  The unguarded
`self.counters[-1]` accesses of the source raise `IndexError` on an empty
stack; the model returns `none` there. -/
def clAux : Nat → S3Counter → List Prefix → Option S3Counter
  | _, st, [] => some st
  | 0, _, _ :: _ => none
  | fuel + 1, st, d0 :: ds =>
    let dl := d0 :: ds
    let lastR := dl.getLastD d0
    match st.counters.getLast? with
    | none => none
    | some top =>
      if cmpP top lastR st.depth st.separator then some (fastAdd st dl)
      else
        let st1 := setPfx st d0.key
        match st1.counters.getLast? with
        | none => none
        | some top1 =>
          if cmpP top1 lastR st.depth st.separator then some (fastAdd st1 dl)
          else if 8 < dl.length then
            let pivot := dl.length / 2
            match clAux fuel st1 (dl.take pivot) with
            | none => none
            | some st2 => clAux fuel st2 (dl.drop pivot)
          else some (slowRecs st1 dl)

def countList (st : S3Counter) (l : List Prefix) : Option S3Counter :=
  clAux l.length st l

/-- Feed a sequence of pages (batches) through `count_list`. -/
def countBatches (st : S3Counter) : List (List Prefix) → Option S3Counter
  | [] => some st
  | b :: bs =>
    match countList st b with
    | none => none
    | some st2 => countBatches st2 bs

/-- Feed the same records one `count_list` call per record. -/
def foldSingles (st : S3Counter) : List Prefix → Option S3Counter
  | [] => some st
  | r :: rs =>
    match countList st [r] with
    | none => none
    | some st2 => foldSingles st2 rs

/-! ### The orchestrator (`s3_disk_usage`) -/

inductive RunOutcome where
  | ok (st : S3Counter)
  | failed (st : S3Counter)
deriving DecidableEq, Repr

/-- `s3_disk_usage`: pages are pulled in order and folded (the one-page
lookahead awaits each fold before starting the next, so fold order is page
order); a page fetch that raises is a `none` page.  The whole loop and the
trailing `counter.finalise()` sit inside one `try:`, whose `except:` prints
and re-raises — so on any failure `finalise` is never executed. -/
def diskUsageRun (st : S3Counter) : List (Option (List Prefix)) → RunOutcome
  | [] => .ok (finalise st)
  | none :: _ => .failed st
  | some page :: rest =>
    match countList st page with
    | none => .failed st
    | some st2 => diskUsageRun st2 rest

/-! ### Observation helpers -/

def stackN (st : S3Counter) : Int := (st.counters.map Prefix.number_objects).sum

def stackS (st : S3Counter) : Int := (st.counters.map Prefix.size).sum

def keysOf (st : S3Counter) : List (List Char) := st.counters.map Prefix.key

def evIsRep : Event → Bool
  | .rep _ _ _ _ _ _ => true
  | .omission _ => false

def evN : Event → Int
  | .rep n _ _ _ _ _ => n
  | .omission _ => 0

def evSize : Event → Int
  | .rep _ s _ _ _ _ => s
  | .omission _ => 0

def evOldest : Event → Int
  | .rep _ _ o _ _ _ => o
  | .omission _ => 0

def evNewest : Event → Int
  | .rep _ _ _ n _ _ => n
  | .omission _ => 0

def evKey : Event → List Char
  | .rep _ _ _ _ k _ => k
  | .omission k => k

def evBd : Event → Dict
  | .rep _ _ _ _ _ b => b
  | .omission _ => []

/-- The key under which a counter is reported (`'' ↦ '.'`). -/
def repKeyOf (c : Prefix) : List Char := if c.key = [] then ['.'] else c.key

/-- Minimum of a list of integers (0 for the empty list, which never arises
where this is used: the counter stack is non-empty). -/
def listMin : List Int → Int
  | [] => 0
  | x :: xs => xs.foldl min x

def listMax : List Int → Int
  | [] => 0
  | x :: xs => xs.foldl max x

/-- Running minimum of the `oldest` fields of a record list, seeded with `v`. -/
def recsMinOld (v : Int) (rs : List Prefix) : Int :=
  rs.foldl (fun a r => min a r.oldest) v

def recsMaxNew (v : Int) (rs : List Prefix) : Int :=
  rs.foldl (fun a r => max a r.newest) v

def totN (l : List Prefix) : Int := (l.map Prefix.number_objects).sum

def totS (l : List Prefix) : Int := (l.map Prefix.size).sum

/-- The chain of `prefix_increment` keys the `_set_prefix` loop builds from a
segment list: each entry extends the previous by one segment and the
separator. -/
def alignChain (sep : Char) (pi : List Char) : List (List Char) → List (List Char)
  | [] => []
  | p :: ps =>
    let pi2 := pi ++ p ++ [sep]
    pi2 :: alignChain sep pi2 ps

/-- The depth-truncated directory segments a key contributes to
`Prefix.compare`: split, drop the file-name component, truncate at `depth`
when `depth > 0`. -/
def cKey (sep : Char) (depth : Int) (k : List Char) : List (List Char) :=
  let r := (pySplit sep k).dropLast
  if 0 < depth then r.take (min r.length depth.toNat) else r

/-- A batch is context-homogeneous when every record projects to the same
truncated directory as the batch's last record, both through the comparison
projection (`cKey`) and through the realignment projection (`spParts`). -/
def Homog (sep : Char) (depth : Int) (l : List Prefix) (lastR : Prefix) : Prop :=
  ∀ r ∈ l, cKey sep depth r.key = cKey sep depth lastR.key ∧
    spParts sep depth r.key = spParts sep depth lastR.key

/-- The stack is aligned to the segment list `P`: some root entry followed by
exactly the `alignChain` of `P`. -/
def AlignedK (st : S3Counter) (P : List (List Char)) : Prop :=
  ∃ k0, keysOf st = k0 :: alignChain st.separator [] P

/-- `repKeyOf` on a bare key. -/
def repKeyK (k : List Char) : List Char := if k = [] then ['.'] else k

/-- The log of an optional engine state (empty if the call failed). -/
def logOf : Option S3Counter → List Event
  | none => []
  | some st => st.log

/-- Number of report lines in a log. -/
def repCount (log : List Event) : Nat := (log.filter evIsRep).length

/-- Number of omission markers in a log. -/
def omCount (log : List Event) : Nat := (log.filter (fun e => ! evIsRep e)).length

/-- The non-breakdown content of a report event. -/
def evTuple (e : Event) : Int × Int × Int × Int × List Char :=
  (evN e, evSize e, evOldest e, evNewest e, evKey e)

/-- Fold a list of records into an accumulator with the merge operator of
the source (`Prefix.__add__`), threading the store. -/
def mergeAll (store : Store) (p : Prefix) (rs : List Prefix) : Store × Prefix :=
  rs.foldl (fun sp r => prefixAdd sp.1 sp.2 r) (store, p)

def outcomeFailed : RunOutcome → Bool
  | .failed _ => true
  | .ok _ => false

def outcomeState : RunOutcome → S3Counter
  | .failed st => st
  | .ok st => st

/-! ### Concrete data for the counterexample runs

Two records as a live listing page would deliver them (`Prefix(data=obj)`
allocates a fresh one-tier breakdown dict per record, here preallocated at
store cells 1 and 2; cell 0 is the shared blank-default dict): key `a/x`,
10 bytes, STANDARD, modified at time 50; key `f`, 5 bytes, STANDARD,
modified at time 60.  `a/x < f` in lexicographic key order, so a page
`[a/x, f]` is sorted ascending.  The counter is built as
`S3Counter(prefix='', depth=1, limit=20)` in a process whose import-time
`now` is 100 and whose 1990 epoch constant is 0. -/

def recAX : Prefix := ⟨1, 10, 50, 50, ['a', '/', 'x'], 1⟩

def recF : Prefix := ⟨1, 5, 60, 60, ['f'], 2⟩

def recA : Prefix := ⟨1, 10, 40, 40, ['a'], 1⟩

def exStore : Store := [[], [("STANDARD", 10)], [("STANDARD", 5)]]

def exInit : S3Counter := S3Counter.init '/' [] 1 20 100 0 exStore

/-- A record whose `LastModified` (200) lies after the import-time `now`
constant (100) used to initialise blank accumulators. -/
def recFuture : Prefix := ⟨1, 5, 200, 200, ['p', '/', 'x'], 1⟩

/-- The conservation relation between two engine states separated by the
processing of the records `l`: the stack stays non-empty, the stack-wide
count/size totals grow by the records' totals, configuration is untouched,
the root keeps its key, and the stack-wide timestamp extrema fold the
records' extrema in. -/
structure Steps (st st' : S3Counter) (l : List Prefix) : Prop where
  ne : st'.counters ≠ []
  n_eq : stackN st' = stackN st + totN l
  s_eq : stackS st' = stackS st + totS l
  sep_eq : st'.separator = st.separator
  base_eq : st'.baseKey = st.baseKey
  dep_eq : st'.depth = st.depth
  lim_eq : st'.limit = st.limit
  n0_eq : st'.now0 = st.now0
  e0_eq : st'.ep1990 = st.ep1990
  hd_eq : (keysOf st').headD [] = (keysOf st).headD []
  omin : listMin (st.counters.map Prefix.oldest) ≤ st.now0 →
    listMin (st'.counters.map Prefix.oldest) =
      recsMinOld (listMin (st.counters.map Prefix.oldest)) l
  nmax : st.ep1990 ≤ listMax (st.counters.map Prefix.newest) →
    listMax (st'.counters.map Prefix.newest) =
      recsMaxNew (listMax (st.counters.map Prefix.newest)) l

/-! ## Arithmetic and list helper lemmas -/

theorem listMin_pair_merge (A : List Int) (x y : Int) :
    listMin (A ++ [x, y]) = listMin (A ++ [min x y]) := by
  cases A with
  | nil => simp [listMin]
  | cons a as => simp [listMin, List.foldl_append, min_assoc]

theorem listMax_pair_merge (A : List Int) (x y : Int) :
    listMax (A ++ [x, y]) = listMax (A ++ [max x y]) := by
  cases A with
  | nil => simp [listMax]
  | cons a as => simp [listMax, List.foldl_append, max_assoc]

theorem listMin_concat (A : List Int) (v : Int) (h : A ≠ []) :
    listMin (A ++ [v]) = min (listMin A) v := by
  cases A with
  | nil => exact absurd rfl h
  | cons a as => simp [listMin, List.foldl_append]

theorem listMax_concat (A : List Int) (v : Int) (h : A ≠ []) :
    listMax (A ++ [v]) = max (listMax A) v := by
  cases A with
  | nil => exact absurd rfl h
  | cons a as => simp [listMax, List.foldl_append]

theorem recsMinOld_le (l : List Prefix) : ∀ v : Int, recsMinOld v l ≤ v := by
  induction l with
  | nil => intro v; simp [recsMinOld]
  | cons r rs ih =>
    intro v
    calc recsMinOld v (r :: rs) = recsMinOld (min v r.oldest) rs := rfl
    _ ≤ min v r.oldest := ih _
    _ ≤ v := min_le_left _ _

theorem recsMaxNew_ge (l : List Prefix) : ∀ v : Int, v ≤ recsMaxNew v l := by
  induction l with
  | nil => intro v; simp [recsMaxNew]
  | cons r rs ih =>
    intro v
    calc v ≤ max v r.newest := le_max_left _ _
    _ ≤ recsMaxNew (max v r.newest) rs := ih _
    _ = recsMaxNew v (r :: rs) := rfl

theorem recsMinOld_append (v : Int) (l1 l2 : List Prefix) :
    recsMinOld v (l1 ++ l2) = recsMinOld (recsMinOld v l1) l2 := by
  simp [recsMinOld, List.foldl_append]

theorem recsMaxNew_append (v : Int) (l1 l2 : List Prefix) :
    recsMaxNew v (l1 ++ l2) = recsMaxNew (recsMaxNew v l1) l2 := by
  simp [recsMaxNew, List.foldl_append]

theorem totN_append (l1 l2 : List Prefix) : totN (l1 ++ l2) = totN l1 + totN l2 := by
  simp [totN]

theorem totS_append (l1 l2 : List Prefix) : totS (l1 ++ l2) = totS l1 + totS l2 := by
  simp [totS]

theorem totN_take_drop (l : List Prefix) (n : Nat) :
    totN (l.take n) + totN (l.drop n) = totN l := by
  rw [← totN_append, List.take_append_drop]

theorem totS_take_drop (l : List Prefix) (n : Nat) :
    totS (l.take n) + totS (l.drop n) = totS l := by
  rw [← totS_append, List.take_append_drop]

/-! ## Shape lemmas for `popCounter` -/

theorem popCounter_single (st : S3Counter) (c : Prefix) (h : st.counters = [c]) :
    popCounter st = reportEv { st with counters := [] } c := by
  simp [popCounter, h]

theorem popCounter_pair (st : S3Counter) (l : List Prefix) (p c : Prefix)
    (h : st.counters = l ++ [p, c]) :
    popCounter st =
      reportEv { st with counters := l ++ [(prefixAdd st.store p c).2],
                         store := (prefixAdd st.store p c).1 } c := by
  have h2 : st.counters = (l ++ [p]) ++ [c] := by simpa using h
  simp [popCounter, h2, List.getLast?_concat, List.dropLast_concat]

@[simp] theorem reportEv_counters (st : S3Counter) (c : Prefix) :
    (reportEv st c).counters = st.counters := rfl

@[simp] theorem reportEv_store (st : S3Counter) (c : Prefix) :
    (reportEv st c).store = st.store := rfl

@[simp] theorem reportEv_log (st : S3Counter) (c : Prefix) :
    (reportEv st c).log =
      st.log ++ [Event.rep c.number_objects c.size c.oldest c.newest (repKeyK c.key)
        (sget st.store c.bd)] := rfl

@[simp] theorem prefixAdd_key (s : Store) (a b : Prefix) : (prefixAdd s a b).2.key = a.key := rfl

@[simp] theorem prefixAdd_n (s : Store) (a b : Prefix) :
    (prefixAdd s a b).2.number_objects = a.number_objects + b.number_objects := rfl

@[simp] theorem prefixAdd_size (s : Store) (a b : Prefix) :
    (prefixAdd s a b).2.size = a.size + b.size := rfl

@[simp] theorem prefixAdd_oldest (s : Store) (a b : Prefix) :
    (prefixAdd s a b).2.oldest = min a.oldest b.oldest := rfl

@[simp] theorem prefixAdd_newest (s : Store) (a b : Prefix) :
    (prefixAdd s a b).2.newest = max a.newest b.newest := rfl

@[simp] theorem prefixAdd_bd (s : Store) (a b : Prefix) : (prefixAdd s a b).2.bd = a.bd := rfl

theorem stack_decomp (st : S3Counter) (h : st.counters ≠ []) :
    (∃ c, st.counters = [c]) ∨ ∃ l p c, st.counters = l ++ [p, c] := by
  rcases List.eq_nil_or_concat st.counters with h0 | ⟨L, c, hc⟩
  · exact absurd h0 h
  · rcases List.eq_nil_or_concat L with h1 | ⟨L2, p, hp⟩
    · exact Or.inl ⟨c, by simp [hc, h1]⟩
    · exact Or.inr ⟨L2, p, c, by simp [hc, hp]⟩

theorem popCounter_keysOf (st : S3Counter) (h : st.counters ≠ []) :
    keysOf (popCounter st) = (keysOf st).dropLast := by
  rcases stack_decomp st h with ⟨c, hc⟩ | ⟨l, p, c, hc⟩
  · rw [popCounter_single st c hc]; simp [keysOf, hc]
  · rw [popCounter_pair st l p c hc]; simp [keysOf, hc]

theorem popCounter_length (st : S3Counter) (h : st.counters ≠ []) :
    (popCounter st).counters.length = st.counters.length - 1 := by
  have hk := popCounter_keysOf st h
  have h2 : (keysOf (popCounter st)).length = ((keysOf st).dropLast).length := by rw [hk]
  simpa [keysOf, List.length_dropLast] using h2

theorem popCounter_log (st : S3Counter) (h : st.counters ≠ []) :
    ∃ b, (popCounter st).log = st.log ++
      [Event.rep ((st.counters.getLast?).getD Prefix.dummy).number_objects
        ((st.counters.getLast?).getD Prefix.dummy).size
        ((st.counters.getLast?).getD Prefix.dummy).oldest
        ((st.counters.getLast?).getD Prefix.dummy).newest
        (repKeyK ((st.counters.getLast?).getD Prefix.dummy).key) b] := by
  rcases stack_decomp st h with ⟨c, hc⟩ | ⟨l, p, c, hc⟩
  · rw [popCounter_single st c hc]
    refine ⟨sget st.store c.bd, ?_⟩
    simp [hc]
  · rw [popCounter_pair st l p c hc]
    refine ⟨sget (prefixAdd st.store p c).1 c.bd, ?_⟩
    have : st.counters.getLast? = some c := by
      rw [hc, show l ++ [p, c] = (l ++ [p]) ++ [c] by simp, List.getLast?_concat]
    simp [this]

@[simp] theorem popCounter_sep (st : S3Counter) : (popCounter st).separator = st.separator := by
  unfold popCounter
  split
  · rfl
  · dsimp only
    split <;> rfl

@[simp] theorem popCounter_base (st : S3Counter) : (popCounter st).baseKey = st.baseKey := by
  unfold popCounter
  split
  · rfl
  · dsimp only
    split <;> rfl

@[simp] theorem popCounter_depth (st : S3Counter) : (popCounter st).depth = st.depth := by
  unfold popCounter
  split
  · rfl
  · dsimp only
    split <;> rfl

@[simp] theorem popCounter_limit (st : S3Counter) : (popCounter st).limit = st.limit := by
  unfold popCounter
  split
  · rfl
  · dsimp only
    split <;> rfl

@[simp] theorem popCounter_now0 (st : S3Counter) : (popCounter st).now0 = st.now0 := by
  unfold popCounter
  split
  · rfl
  · dsimp only
    split <;> rfl

@[simp] theorem popCounter_ep (st : S3Counter) : (popCounter st).ep1990 = st.ep1990 := by
  unfold popCounter
  split
  · rfl
  · dsimp only
    split <;> rfl

@[simp] theorem popCounter_rad (st : S3Counter) :
    (popCounter st).reports_at_depth = st.reports_at_depth := by
  unfold popCounter
  split
  · rfl
  · dsimp only
    split <;> rfl

theorem popCounter_stackN (st : S3Counter) (l : List Prefix) (p c : Prefix)
    (h : st.counters = l ++ [p, c]) : stackN (popCounter st) = stackN st := by
  rw [popCounter_pair st l p c h]
  simp [stackN, h]

theorem popCounter_stackS (st : S3Counter) (l : List Prefix) (p c : Prefix)
    (h : st.counters = l ++ [p, c]) : stackS (popCounter st) = stackS st := by
  rw [popCounter_pair st l p c h]
  simp [stackS, h]

theorem popCounter_minOld (st : S3Counter) (l : List Prefix) (p c : Prefix)
    (h : st.counters = l ++ [p, c]) :
    listMin ((popCounter st).counters.map Prefix.oldest) =
      listMin (st.counters.map Prefix.oldest) := by
  rw [popCounter_pair st l p c h]
  simp only [reportEv_counters, h, List.map_append, List.map_cons, List.map_nil,
    prefixAdd_oldest]
  exact (listMin_pair_merge (l.map Prefix.oldest) p.oldest c.oldest).symm

theorem popCounter_maxNew (st : S3Counter) (l : List Prefix) (p c : Prefix)
    (h : st.counters = l ++ [p, c]) :
    listMax ((popCounter st).counters.map Prefix.newest) =
      listMax (st.counters.map Prefix.newest) := by
  rw [popCounter_pair st l p c h]
  simp only [reportEv_counters, h, List.map_append, List.map_cons, List.map_nil,
    prefixAdd_newest]
  exact (listMax_pair_merge (l.map Prefix.newest) p.newest c.newest).symm

theorem popUntilLen_eq (st : S3Counter) (t : Nat) :
    popUntilLen st t = if t < st.counters.length then popUntilLen (popCounter st) t else st := by
  by_cases hc : t < st.counters.length
  · have hne : st.counters ≠ [] := by
      intro he
      rw [he] at hc
      exact absurd hc (by simp)
    have hlen := popCounter_length st hne
    rw [if_pos hc]
    obtain ⟨k, hL⟩ : ∃ k, st.counters.length = k + 1 := ⟨st.counters.length - 1, by omega⟩
    have e1 : popUntilLen st t = popLoop k (popCounter st) t := by
      unfold popUntilLen
      rw [hL]
      show (if t < st.counters.length then popLoop k (popCounter st) t else st) = _
      rw [if_pos hc]
    rw [e1]
    unfold popUntilLen
    congr 1
    omega
  · rw [if_neg hc]
    unfold popUntilLen
    rcases hL : st.counters.length with _ | k
    · rfl
    · show (if t < st.counters.length then _ else st) = st
      rw [if_neg hc]

theorem popUntilLen_invar {α : Sort _} (f : S3Counter → α)
    (hf : ∀ st, f (popCounter st) = f st) :
    ∀ (n : Nat) (st : S3Counter) (t : Nat), st.counters.length ≤ n →
      f (popUntilLen st t) = f st := by
  intro n
  induction n with
  | zero =>
    intro st t h
    rw [popUntilLen_eq]
    rw [if_neg (by omega)]
  | succ m ih =>
    intro st t h
    rw [popUntilLen_eq]
    by_cases hc : t < st.counters.length
    · rw [if_pos hc]
      have hne : st.counters ≠ [] := by
        intro he
        rw [he] at hc
        exact absurd hc (by simp)
      have hlen := popCounter_length st hne
      rw [ih (popCounter st) t (by omega), hf]
    · rw [if_neg hc]

theorem stack_decomp2 (st : S3Counter) (h : 2 ≤ st.counters.length) :
    ∃ l p c, st.counters = l ++ [p, c] := by
  have hne : st.counters ≠ [] := by
    intro he
    rw [he] at h
    simp at h
  rcases stack_decomp st hne with ⟨c, hc⟩ | hp
  · rw [hc] at h
    simp at h
  · exact hp

theorem popUntilLen_invar_pos {α : Sort _} (f : S3Counter → α)
    (hf : ∀ st, 2 ≤ st.counters.length → f (popCounter st) = f st) :
    ∀ (n : Nat) (st : S3Counter) (t : Nat), st.counters.length ≤ n → 1 ≤ t →
      f (popUntilLen st t) = f st := by
  intro n
  induction n with
  | zero =>
    intro st t h ht
    rw [popUntilLen_eq, if_neg (by omega)]
  | succ m ih =>
    intro st t h ht
    rw [popUntilLen_eq]
    by_cases hc : t < st.counters.length
    · rw [if_pos hc]
      have hne : st.counters ≠ [] := by
        intro he
        rw [he] at hc
        exact absurd hc (by simp)
      have hlen := popCounter_length st hne
      rw [ih (popCounter st) t (by omega) ht, hf st (by omega)]
    · rw [if_neg hc]

theorem popCounter_mapKey {α : Type _} (f : List Char → α) (st : S3Counter)
    (h : st.counters ≠ []) :
    (popCounter st).counters.map (fun c => f c.key) =
      (st.counters.map (fun c => f c.key)).dropLast := by
  rcases stack_decomp st h with ⟨c, hc⟩ | ⟨l, p, c, hc⟩
  · rw [popCounter_single st c hc]
    simp [hc]
  · rw [popCounter_pair st l p c hc]
    simp [hc]

theorem take_dropLast_eq {α : Type _} (l : List α) (t : Nat) (h : t + 1 ≤ l.length) :
    l.dropLast.take t = l.take t := by
  rw [List.dropLast_eq_take, List.take_take]
  congr 1
  omega

theorem popUntilLen_mapKey {α : Type _} (f : List Char → α) :
    ∀ (n : Nat) (st : S3Counter) (t : Nat), st.counters.length ≤ n →
      (popUntilLen st t).counters.map (fun c => f c.key) =
        (st.counters.map (fun c => f c.key)).take t := by
  intro n
  induction n with
  | zero =>
    intro st t h
    have h0 : st.counters = [] := List.length_eq_zero.mp (by omega)
    rw [popUntilLen_eq, if_neg (by omega), h0]
    simp
  | succ m ih =>
    intro st t h
    rw [popUntilLen_eq]
    by_cases hc : t < st.counters.length
    · rw [if_pos hc]
      have hne : st.counters ≠ [] := by
        intro he
        rw [he] at hc
        exact absurd hc (by simp)
      have hlen := popCounter_length st hne
      rw [ih (popCounter st) t (by omega), popCounter_mapKey f st hne]
      exact take_dropLast_eq _ t (by simpa using hc)
    · rw [if_neg hc]
      rw [List.take_of_length_le (by simpa using Nat.le_of_not_lt hc)]

theorem popUntilLen_keysOf (st : S3Counter) (t : Nat) :
    keysOf (popUntilLen st t) = (keysOf st).take t := by
  have := popUntilLen_mapKey (fun k => k) st.counters.length st t le_rfl
  simpa [keysOf] using this

theorem popUntilLen_length (st : S3Counter) (t : Nat) :
    (popUntilLen st t).counters.length = min t st.counters.length := by
  have h := popUntilLen_keysOf st t
  have h2 : (keysOf (popUntilLen st t)).length = ((keysOf st).take t).length := by rw [h]
  simpa [keysOf] using h2


theorem popCounter_stackN2 (st : S3Counter) (h : 2 ≤ st.counters.length) :
    stackN (popCounter st) = stackN st := by
  obtain ⟨l, p, c, hc⟩ := stack_decomp2 st h
  exact popCounter_stackN st l p c hc

theorem popCounter_stackS2 (st : S3Counter) (h : 2 ≤ st.counters.length) :
    stackS (popCounter st) = stackS st := by
  obtain ⟨l, p, c, hc⟩ := stack_decomp2 st h
  exact popCounter_stackS st l p c hc

theorem popCounter_minOld2 (st : S3Counter) (h : 2 ≤ st.counters.length) :
    listMin ((popCounter st).counters.map Prefix.oldest) =
      listMin (st.counters.map Prefix.oldest) := by
  obtain ⟨l, p, c, hc⟩ := stack_decomp2 st h
  exact popCounter_minOld st l p c hc

theorem popCounter_maxNew2 (st : S3Counter) (h : 2 ≤ st.counters.length) :
    listMax ((popCounter st).counters.map Prefix.newest) =
      listMax (st.counters.map Prefix.newest) := by
  obtain ⟨l, p, c, hc⟩ := stack_decomp2 st h
  exact popCounter_maxNew st l p c hc

theorem popUntilLen_sep (st : S3Counter) (t : Nat) :
    (popUntilLen st t).separator = st.separator :=
  popUntilLen_invar S3Counter.separator (fun s => popCounter_sep s) st.counters.length st t le_rfl

theorem popUntilLen_base (st : S3Counter) (t : Nat) :
    (popUntilLen st t).baseKey = st.baseKey :=
  popUntilLen_invar S3Counter.baseKey (fun s => popCounter_base s) st.counters.length st t le_rfl

theorem popUntilLen_depth (st : S3Counter) (t : Nat) :
    (popUntilLen st t).depth = st.depth :=
  popUntilLen_invar S3Counter.depth (fun s => popCounter_depth s) st.counters.length st t le_rfl

theorem popUntilLen_limit (st : S3Counter) (t : Nat) :
    (popUntilLen st t).limit = st.limit :=
  popUntilLen_invar S3Counter.limit (fun s => popCounter_limit s) st.counters.length st t le_rfl

theorem popUntilLen_now0 (st : S3Counter) (t : Nat) :
    (popUntilLen st t).now0 = st.now0 :=
  popUntilLen_invar S3Counter.now0 (fun s => popCounter_now0 s) st.counters.length st t le_rfl

theorem popUntilLen_ep (st : S3Counter) (t : Nat) :
    (popUntilLen st t).ep1990 = st.ep1990 :=
  popUntilLen_invar S3Counter.ep1990 (fun s => popCounter_ep s) st.counters.length st t le_rfl

theorem popUntilLen_stackN (st : S3Counter) (t : Nat) (ht : 1 ≤ t) :
    stackN (popUntilLen st t) = stackN st :=
  popUntilLen_invar_pos stackN popCounter_stackN2 st.counters.length st t le_rfl ht

theorem popUntilLen_stackS (st : S3Counter) (t : Nat) (ht : 1 ≤ t) :
    stackS (popUntilLen st t) = stackS st :=
  popUntilLen_invar_pos stackS popCounter_stackS2 st.counters.length st t le_rfl ht

theorem popUntilLen_minOld (st : S3Counter) (t : Nat) (ht : 1 ≤ t) :
    listMin ((popUntilLen st t).counters.map Prefix.oldest) =
      listMin (st.counters.map Prefix.oldest) :=
  popUntilLen_invar_pos (fun s => listMin (s.counters.map Prefix.oldest))
    popCounter_minOld2 st.counters.length st t le_rfl ht

theorem popUntilLen_maxNew (st : S3Counter) (t : Nat) (ht : 1 ≤ t) :
    listMax ((popUntilLen st t).counters.map Prefix.newest) =
      listMax (st.counters.map Prefix.newest) :=
  popUntilLen_invar_pos (fun s => listMax (s.counters.map Prefix.newest))
    popCounter_maxNew2 st.counters.length st t le_rfl ht

theorem popUntilLen_ne (st : S3Counter) (t : Nat) (ht : 1 ≤ t) (h : st.counters ≠ []) :
    (popUntilLen st t).counters ≠ [] := by
  have hl := popUntilLen_length st t
  intro he
  rw [he] at hl
  have : 0 < st.counters.length := List.length_pos.mpr h
  simp at hl
  omega

theorem headD_dropLast {α : Type _} (l : List α) (d : α) (h : 2 ≤ l.length) :
    l.dropLast.headD d = l.headD d := by
  match l, h with
  | a :: b :: t, _ => simp

theorem headD_take {α : Type _} (l : List α) (d : α) (t : Nat) (ht : 1 ≤ t) :
    (l.take t).headD d = l.headD d := by
  cases l with
  | nil => simp
  | cons a l2 =>
    match t, ht with
    | s + 1, _ => simp

theorem drop_reverse_concat {α : Type _} (L : List α) (a : α) (t : Nat) (h : t ≤ L.length) :
    ((L ++ [a]).drop t).reverse = a :: ((L.drop t).reverse) := by
  rw [List.drop_append_of_le_length h]
  simp

theorem popUntilLen_logKeys :
    ∀ (n : Nat) (st : S3Counter) (t : Nat), st.counters.length ≤ n →
      (popUntilLen st t).log.map evKey =
        st.log.map evKey ++
          ((st.counters.map (fun c => repKeyK c.key)).drop t).reverse := by
  intro n
  induction n with
  | zero =>
    intro st t h
    have h0 : st.counters = [] := List.length_eq_zero.mp (by omega)
    rw [popUntilLen_eq, if_neg (by omega), h0]
    simp
  | succ m ih =>
    intro st t h
    rw [popUntilLen_eq]
    by_cases hc : t < st.counters.length
    · rw [if_pos hc]
      have hne : st.counters ≠ [] := by
        intro he
        rw [he] at hc
        exact absurd hc (by simp)
      obtain ⟨L, c, hL⟩ := (List.eq_nil_or_concat st.counters).resolve_left hne
      have hL2 : st.counters = L ++ [c] := by simpa using hL
      have hlen := popCounter_length st hne
      rw [ih (popCounter st) t (by omega)]
      obtain ⟨b, hlog⟩ := popCounter_log st hne
      have hgl : st.counters.getLast? = some c := by
        rw [hL2]
        exact List.getLast?_concat _
      rw [hgl] at hlog
      rw [hlog, popCounter_mapKey (fun k => repKeyK k) st hne, hL2]
      have hLt : t ≤ (L.map (fun c => repKeyK c.key)).length := by
        have hll : st.counters.length = L.length + 1 := by rw [hL2]; simp
        simp
        omega
      rw [show (L ++ [c]).map (fun c => repKeyK c.key)
            = L.map (fun c => repKeyK c.key) ++ [repKeyK c.key] by simp]
      rw [drop_reverse_concat _ _ t hLt]
      simp [evKey]
    · rw [if_neg hc]
      have : (st.counters.map (fun c => repKeyK c.key)).drop t = [] := by
        apply List.drop_eq_nil_of_le
        simp
        omega
      rw [this]
      simp

theorem finalise_step (st : S3Counter) (h : st.counters ≠ []) :
    finalise st = finalise (popCounter st) := by
  unfold finalise popUntilLen
  have h0 : 0 < st.counters.length := List.length_pos.mpr h
  conv_lhs => rw [show popLoop st.counters.length st 0 = popUntilLen st 0 from rfl]
  rw [popUntilLen_eq st 0, if_pos h0]
  rfl


/-! ## The conservation relation through each engine operation -/

theorem steps_refl (st : S3Counter) (h : st.counters ≠ []) : Steps st st [] where
  ne := h
  n_eq := by simp [totN]
  s_eq := by simp [totS]
  sep_eq := rfl
  base_eq := rfl
  dep_eq := rfl
  lim_eq := rfl
  n0_eq := rfl
  e0_eq := rfl
  hd_eq := rfl
  omin := fun _ => by simp [recsMinOld]
  nmax := fun _ => by simp [recsMaxNew]

theorem Steps.comp {st1 st2 st3 : S3Counter} {l1 l2 : List Prefix}
    (a : Steps st1 st2 l1) (b : Steps st2 st3 l2) : Steps st1 st3 (l1 ++ l2) where
  ne := b.ne
  n_eq := by rw [b.n_eq, a.n_eq, totN_append]; ring
  s_eq := by rw [b.s_eq, a.s_eq, totS_append]; ring
  sep_eq := by rw [b.sep_eq, a.sep_eq]
  base_eq := by rw [b.base_eq, a.base_eq]
  dep_eq := by rw [b.dep_eq, a.dep_eq]
  lim_eq := by rw [b.lim_eq, a.lim_eq]
  n0_eq := by rw [b.n0_eq, a.n0_eq]
  e0_eq := by rw [b.e0_eq, a.e0_eq]
  hd_eq := by rw [b.hd_eq, a.hd_eq]
  omin := by
    intro h
    have h1 := a.omin h
    have h2 : listMin (st2.counters.map Prefix.oldest) ≤ st2.now0 := by
      rw [h1, a.n0_eq]
      exact le_trans (recsMinOld_le _ _) h
    rw [recsMinOld_append, ← h1]
    exact b.omin h2
  nmax := by
    intro h
    have h1 := a.nmax h
    have h2 : st2.ep1990 ≤ listMax (st2.counters.map Prefix.newest) := by
      rw [h1, a.e0_eq]
      exact le_trans h (recsMaxNew_ge _ _)
    rw [recsMaxNew_append, ← h1]
    exact b.nmax h2

theorem steps_of_eqs (st st' : S3Counter) (h : st.counters ≠ [])
    (hc : st'.counters = st.counters) (hst : st'.separator = st.separator)
    (hb : st'.baseKey = st.baseKey) (hdep : st'.depth = st.depth)
    (hl : st'.limit = st.limit) (hn : st'.now0 = st.now0)
    (he : st'.ep1990 = st.ep1990) : Steps st st' [] where
  ne := by rw [hc]; exact h
  n_eq := by rw [stackN, hc]; simp [stackN, totN]
  s_eq := by rw [stackS, hc]; simp [stackS, totS]
  sep_eq := hst
  base_eq := hb
  dep_eq := hdep
  lim_eq := hl
  n0_eq := hn
  e0_eq := he
  hd_eq := by rw [keysOf, hc]; rfl
  omin := fun _ => by rw [hc]; simp [recsMinOld]
  nmax := fun _ => by rw [hc]; simp [recsMaxNew]

theorem steps_rad (st : S3Counter) (r : Int) (h : st.counters ≠ []) :
    Steps st { st with reports_at_depth := r } [] :=
  steps_of_eqs st _ h rfl rfl rfl rfl rfl rfl rfl

theorem headD_append {α : Type _} (l l2 : List α) (d : α) (h : l ≠ []) :
    (l ++ l2).headD d = l.headD d := by
  cases l with
  | nil => exact absurd rfl h
  | cons a t => rfl

theorem keysOf_ne (st : S3Counter) (h : st.counters ≠ []) : keysOf st ≠ [] := by
  simpa [keysOf] using h

theorem addTop_eq (st : S3Counter) (d : Prefix) (L : List Prefix) (c : Prefix)
    (hL : st.counters = L ++ [c]) :
    addTop st d = { st with counters := L ++ [(prefixAdd st.store c d).2],
                            store := (prefixAdd st.store c d).1 } := by
  have hgl : st.counters.getLast? = some c := by
    rw [hL]
    exact List.getLast?_concat _
  unfold addTop
  rw [hgl, hL]
  simp

theorem addTop_steps (st : S3Counter) (d : Prefix) (h : st.counters ≠ []) :
    Steps st (addTop st d) [d] := by
  obtain ⟨L, c, hL0⟩ := (List.eq_nil_or_concat st.counters).resolve_left h
  have hL : st.counters = L ++ [c] := by simpa using hL0
  rw [addTop_eq st d L c hL]
  constructor
  case ne => simp
  case n_eq =>
    simp only [hL, stackN, totN, List.map_append, List.map_cons, List.map_nil,
      List.sum_append, List.sum_cons, List.sum_nil, prefixAdd_n]
    ring
  case s_eq =>
    simp only [hL, stackS, totS, List.map_append, List.map_cons, List.map_nil,
      List.sum_append, List.sum_cons, List.sum_nil, prefixAdd_size]
    ring
  case sep_eq => rfl
  case base_eq => rfl
  case dep_eq => rfl
  case lim_eq => rfl
  case n0_eq => rfl
  case e0_eq => rfl
  case hd_eq => simp [keysOf, hL]
  case omin =>
    intro _
    simp only [hL, List.map_append, List.map_cons, List.map_nil, prefixAdd_oldest]
    rw [← listMin_pair_merge (L.map Prefix.oldest) c.oldest d.oldest]
    rw [show L.map Prefix.oldest ++ [c.oldest, d.oldest]
          = (L.map Prefix.oldest ++ [c.oldest]) ++ [d.oldest] by simp]
    rw [listMin_concat _ _ (by simp)]
    simp [recsMinOld]
  case nmax =>
    intro _
    simp only [hL, List.map_append, List.map_cons, List.map_nil, prefixAdd_newest]
    rw [← listMax_pair_merge (L.map Prefix.newest) c.newest d.newest]
    rw [show L.map Prefix.newest ++ [c.newest, d.newest]
          = (L.map Prefix.newest ++ [c.newest]) ++ [d.newest] by simp]
    rw [listMax_concat _ _ (by simp)]
    simp [recsMaxNew]


theorem Steps.compn {st1 st2 st3 : S3Counter} (a : Steps st1 st2 []) (b : Steps st2 st3 []) :
    Steps st1 st3 [] := by
  have h := a.comp b
  simpa using h

theorem Steps.compl {st1 st2 st3 : S3Counter} {l : List Prefix}
    (a : Steps st1 st2 []) (b : Steps st2 st3 l) : Steps st1 st3 l := by
  have h := a.comp b
  simpa using h

theorem Steps.compr {st1 st2 st3 : S3Counter} {l : List Prefix}
    (a : Steps st1 st2 l) (b : Steps st2 st3 []) : Steps st1 st3 l := by
  have h := a.comp b
  simpa using h

theorem push_steps (st : S3Counter) (k : List Char) (h : st.counters ≠ []) :
    Steps st { st with reports_at_depth := 0,
                       counters := st.counters ++ [Prefix.blank st.now0 st.ep1990 k] } [] where
  ne := by simp
  n_eq := by simp [stackN, totN, Prefix.blank]
  s_eq := by simp [stackS, totS, Prefix.blank]
  sep_eq := rfl
  base_eq := rfl
  dep_eq := rfl
  lim_eq := rfl
  n0_eq := rfl
  e0_eq := rfl
  hd_eq := by
    simp only [keysOf, List.map_append, List.map_cons, List.map_nil]
    exact headD_append _ _ _ (by simpa [keysOf] using keysOf_ne st h)
  omin := by
    intro hb
    simp only [List.map_append, List.map_cons, List.map_nil, Prefix.blank]
    rw [listMin_concat _ _ (by simpa using h)]
    simp [recsMinOld, min_eq_left hb]
  nmax := by
    intro hb
    simp only [List.map_append, List.map_cons, List.map_nil, Prefix.blank]
    rw [listMax_concat _ _ (by simpa using h)]
    simp [recsMaxNew, max_eq_left hb]

theorem popUntilLen_steps (st : S3Counter) (t : Nat) (h : st.counters ≠ []) (ht : 1 ≤ t) :
    Steps st (popUntilLen st t) [] where
  ne := popUntilLen_ne st t ht h
  n_eq := by rw [popUntilLen_stackN st t ht]; simp [totN]
  s_eq := by rw [popUntilLen_stackS st t ht]; simp [totS]
  sep_eq := popUntilLen_sep st t
  base_eq := popUntilLen_base st t
  dep_eq := popUntilLen_depth st t
  lim_eq := popUntilLen_limit st t
  n0_eq := popUntilLen_now0 st t
  e0_eq := popUntilLen_ep st t
  hd_eq := by
    rw [popUntilLen_keysOf]
    exact headD_take _ _ t ht
  omin := fun _ => by rw [popUntilLen_minOld st t ht]; simp [recsMinOld]
  nmax := fun _ => by rw [popUntilLen_maxNew st t ht]; simp [recsMaxNew]

theorem spStep_steps (st : S3Counter) (pi2 : List Char) (ci : Nat) (h : st.counters ≠ [])
    (hci : 1 ≤ ci) : Steps st (spStep st pi2 ci) [] := by
  have s1 : Steps st (if ci < st.counters.length ∧
      ¬ ((st.counters.getD ci Prefix.dummy).key = pi2) then
        popUntilLen { st with reports_at_depth := 0 } ci else st) [] := by
    by_cases hcond : ci < st.counters.length ∧ ¬ ((st.counters.getD ci Prefix.dummy).key = pi2)
    · rw [if_pos hcond]
      exact (steps_rad st 0 h).compn
        (popUntilLen_steps { st with reports_at_depth := 0 } ci h hci)
    · rw [if_neg hcond]
      exact steps_refl st h
  unfold spStep
  dsimp only
  by_cases h2 : (if ci < st.counters.length ∧
      ¬ ((st.counters.getD ci Prefix.dummy).key = pi2) then
        popUntilLen { st with reports_at_depth := 0 } ci else st).counters.length ≤ ci
  · rw [if_pos h2]
    exact s1.compn (push_steps _ pi2 s1.ne)
  · rw [if_neg h2]
    exact s1

theorem spLoop_steps : ∀ (parts : List (List Char)) (st : S3Counter) (pi : List Char) (idx : Nat),
    st.counters ≠ [] → Steps st (spLoop st pi idx parts) [] := by
  intro parts
  induction parts with
  | nil =>
    intro st pi idx h
    exact steps_refl st h
  | cons part rest ih =>
    intro st pi idx h
    have s1 := spStep_steps st (pi ++ part ++ [st.separator]) (idx + 1) h (by omega)
    have s2 := ih (spStep st (pi ++ part ++ [st.separator]) (idx + 1))
      (pi ++ part ++ [st.separator]) (idx + 1) s1.ne
    exact s1.compn s2

theorem setPfx_steps (st : S3Counter) (k : List Char) (h : st.counters ≠ []) :
    Steps st (setPfx st k) [] := by
  unfold setPfx
  dsimp only
  have s1 := spLoop_steps (spParts st.separator st.depth k) st [] 0 h
  exact s1.compn (popUntilLen_steps _ _ s1.ne (by omega))

theorem fastAdd_steps : ∀ (l : List Prefix) (st : S3Counter), st.counters ≠ [] →
    Steps st (fastAdd st l) l := by
  intro l
  induction l with
  | nil =>
    intro st h
    exact steps_refl st h
  | cons d ds ih =>
    intro st h
    have a := addTop_steps st d h
    have b := ih (addTop st d) a.ne
    have hcmp := a.comp b
    simpa [fastAdd] using hcmp

theorem slowLeafRep_counters (st : S3Counter) (d : Prefix) :
    (slowLeafRep st d).counters = st.counters := by
  unfold slowLeafRep
  split
  · dsimp only
    split <;> rfl
  · rfl

theorem slowLeafRep_sep (st : S3Counter) (d : Prefix) :
    (slowLeafRep st d).separator = st.separator := by
  unfold slowLeafRep
  split
  · dsimp only
    split <;> rfl
  · rfl

theorem slowLeafRep_base (st : S3Counter) (d : Prefix) :
    (slowLeafRep st d).baseKey = st.baseKey := by
  unfold slowLeafRep
  split
  · dsimp only
    split <;> rfl
  · rfl

theorem slowLeafRep_depth (st : S3Counter) (d : Prefix) :
    (slowLeafRep st d).depth = st.depth := by
  unfold slowLeafRep
  split
  · dsimp only
    split <;> rfl
  · rfl

theorem slowLeafRep_limit (st : S3Counter) (d : Prefix) :
    (slowLeafRep st d).limit = st.limit := by
  unfold slowLeafRep
  split
  · dsimp only
    split <;> rfl
  · rfl

theorem slowLeafRep_now0 (st : S3Counter) (d : Prefix) :
    (slowLeafRep st d).now0 = st.now0 := by
  unfold slowLeafRep
  split
  · dsimp only
    split <;> rfl
  · rfl

theorem slowLeafRep_ep (st : S3Counter) (d : Prefix) :
    (slowLeafRep st d).ep1990 = st.ep1990 := by
  unfold slowLeafRep
  split
  · dsimp only
    split <;> rfl
  · rfl

theorem slowLeafRep_store (st : S3Counter) (d : Prefix) :
    (slowLeafRep st d).store = st.store := by
  unfold slowLeafRep
  split
  · dsimp only
    split <;> rfl
  · rfl

theorem slowStep_steps (st : S3Counter) (d : Prefix) (h : st.counters ≠ []) :
    Steps st (slowStep st d) [d] := by
  have s1 : Steps st (if cmpP (topOf st) d st.depth st.separator then st
      else setPfx st d.key) [] := by
    by_cases hc : cmpP (topOf st) d st.depth st.separator
    · rw [if_pos hc]
      exact steps_refl st h
    · rw [if_neg hc]
      exact setPfx_steps st d.key h
  have s2 := addTop_steps _ d s1.ne
  have s3 : Steps (addTop (if cmpP (topOf st) d st.depth st.separator then st
      else setPfx st d.key) d) (slowStep st d) [] := by
    apply steps_of_eqs _ _ s2.ne (slowLeafRep_counters _ d) (slowLeafRep_sep _ d)
      (slowLeafRep_base _ d) (slowLeafRep_depth _ d) (slowLeafRep_limit _ d)
      (slowLeafRep_now0 _ d) (slowLeafRep_ep _ d)
  exact s1.compl (s2.compr s3)

theorem slowRecs_steps : ∀ (l : List Prefix) (st : S3Counter), st.counters ≠ [] →
    Steps st (slowRecs st l) l := by
  intro l
  induction l with
  | nil =>
    intro st h
    exact steps_refl st h
  | cons d ds ih =>
    intro st h
    have a := slowStep_steps st d h
    have b := ih (slowStep st d) a.ne
    have hcmp := a.comp b
    simpa [slowRecs] using hcmp


theorem clAux_steps : ∀ (fuel : Nat) (l : List Prefix) (st : S3Counter),
    l.length ≤ fuel → st.counters ≠ [] →
    ∃ st', clAux fuel st l = some st' ∧ Steps st st' l := by
  intro fuel
  induction fuel with
  | zero =>
    intro l st hl hne
    match l, hl with
    | [], _ => exact ⟨st, rfl, steps_refl st hne⟩
  | succ f ih =>
    intro l st hl hne
    match l with
    | [] => exact ⟨st, rfl, steps_refl st hne⟩
    | d0 :: ds =>
      simp only [List.length_cons] at hl
      obtain ⟨L, c, hL0⟩ := (List.eq_nil_or_concat st.counters).resolve_left hne
      have hL : st.counters = L ++ [c] := by simpa using hL0
      have hgl : st.counters.getLast? = some c := by
        rw [hL]
        exact List.getLast?_concat _
      by_cases hc1 : cmpP c ((d0 :: ds).getLast?.getD d0) st.depth st.separator
      · refine ⟨fastAdd st (d0 :: ds), ?_, fastAdd_steps _ st hne⟩
        simp [clAux, hgl, hc1]
      · have s1 := setPfx_steps st d0.key hne
        obtain ⟨L1, c1, hL10⟩ :=
          (List.eq_nil_or_concat (setPfx st d0.key).counters).resolve_left s1.ne
        have hL1 : (setPfx st d0.key).counters = L1 ++ [c1] := by simpa using hL10
        have hgl1 : (setPfx st d0.key).counters.getLast? = some c1 := by
          rw [hL1]
          exact List.getLast?_concat _
        by_cases hc2 : cmpP c1 ((d0 :: ds).getLast?.getD d0) st.depth st.separator
        · refine ⟨fastAdd (setPfx st d0.key) (d0 :: ds), ?_,
            s1.compl (fastAdd_steps _ _ s1.ne)⟩
          simp [clAux, hgl, hc1, hgl1, hc2]
        · by_cases h8 : 8 < ds.length + 1
          · have hp1 : ((d0 :: ds).take ((ds.length + 1) / 2)).length ≤ f := by
              simp only [List.length_take, List.length_cons]
              omega
            obtain ⟨st2, e2, S2⟩ := ih ((d0 :: ds).take ((ds.length + 1) / 2))
              (setPfx st d0.key) hp1 s1.ne
            have hp2 : ((d0 :: ds).drop ((ds.length + 1) / 2)).length ≤ f := by
              simp only [List.length_drop, List.length_cons]
              omega
            obtain ⟨st3, e3, S3⟩ := ih ((d0 :: ds).drop ((ds.length + 1) / 2)) st2 hp2 S2.ne
            refine ⟨st3, ?_, ?_⟩
            · simp [clAux, hgl, hc1, hgl1, hc2, h8, e2, e3]
            · have hS : Steps st st3 (((d0 :: ds).take ((ds.length + 1) / 2)) ++
                  ((d0 :: ds).drop ((ds.length + 1) / 2))) := s1.compl (S2.comp S3)
              rw [List.take_append_drop] at hS
              exact hS
          · refine ⟨slowRecs (setPfx st d0.key) (d0 :: ds), ?_,
              s1.compl (slowRecs_steps _ _ s1.ne)⟩
            simp [clAux, hgl, hc1, hgl1, hc2, h8]

theorem countList_steps (st : S3Counter) (l : List Prefix) (h : st.counters ≠ []) :
    ∃ st', countList st l = some st' ∧ Steps st st' l :=
  clAux_steps l.length l st le_rfl h

theorem countBatches_steps : ∀ (bs : List (List Prefix)) (st : S3Counter),
    st.counters ≠ [] → ∃ st', countBatches st bs = some st' ∧ Steps st st' bs.flatten := by
  intro bs
  induction bs with
  | nil =>
    intro st h
    exact ⟨st, rfl, steps_refl st h⟩
  | cons b bs2 ih =>
    intro st h
    obtain ⟨st1, e1, S1⟩ := countList_steps st b h
    obtain ⟨st2, e2, S2⟩ := ih st1 S1.ne
    refine ⟨st2, ?_, ?_⟩
    · simp [countBatches, e1, e2]
    · have hS := S1.comp S2
      simpa using hS

theorem foldSingles_steps : ∀ (rs : List Prefix) (st : S3Counter),
    st.counters ≠ [] → ∃ st', foldSingles st rs = some st' ∧ Steps st st' rs := by
  intro rs
  induction rs with
  | nil =>
    intro st h
    exact ⟨st, rfl, steps_refl st h⟩
  | cons r rs2 ih =>
    intro st h
    obtain ⟨st1, e1, S1⟩ := countList_steps st [r] h
    obtain ⟨st2, e2, S2⟩ := ih st1 S1.ne
    refine ⟨st2, ?_, ?_⟩
    · simp [foldSingles, e1, e2]
    · have hS := S1.comp S2
      simpa using hS

theorem finalise_counters (st : S3Counter) : (finalise st).counters = [] := by
  have h := popUntilLen_length st 0
  simp at h
  exact List.length_eq_zero.mp (by simpa [finalise] using h)

theorem finalise_lastRep :
    ∀ (n : Nat) (st : S3Counter), st.counters.length ≤ n → st.counters ≠ [] →
      ∃ b, (finalise st).log.getLast? =
        some (Event.rep (stackN st) (stackS st)
          (listMin (st.counters.map Prefix.oldest))
          (listMax (st.counters.map Prefix.newest))
          (repKeyK ((keysOf st).headD [])) b) := by
  intro n
  induction n with
  | zero =>
    intro st h hne
    exact absurd (List.length_eq_zero.mp (by omega)) hne
  | succ m ih =>
    intro st h hne
    rcases stack_decomp st hne with ⟨c, hc⟩ | ⟨l, p, c, hc⟩
    · have hpop := popCounter_single st c hc
      have hfin : finalise st = popCounter st := by
        rw [finalise_step st hne]
        unfold finalise
        rw [popUntilLen_eq, if_neg (by rw [hpop]; simp)]
      refine ⟨sget st.store c.bd, ?_⟩
      rw [hfin, hpop]
      simp [stackN, stackS, listMin, listMax, keysOf, hc, List.getLast?_concat]
    · have h2 : 2 ≤ st.counters.length := by rw [hc]; simp
      have hlenp := popCounter_length st hne
      have hne2 : (popCounter st).counters ≠ [] := by
        intro he
        rw [he] at hlenp
        simp at hlenp
        omega
      obtain ⟨b, hres⟩ := ih (popCounter st) (by omega) hne2
      rw [popCounter_stackN2 st h2, popCounter_stackS2 st h2, popCounter_minOld2 st h2,
        popCounter_maxNew2 st h2] at hres
      have hh : (keysOf (popCounter st)).headD [] = (keysOf st).headD [] := by
        rw [popCounter_keysOf st hne]
        exact headD_dropLast _ _ (by simpa [keysOf] using h2)
      rw [hh] at hres
      rw [finalise_step st hne]
      exact ⟨b, hres⟩


theorem totN_of_ones (l : List Prefix) (h : ∀ r ∈ l, r.number_objects = 1) :
    totN l = (l.length : Int) := by
  induction l with
  | nil => simp [totN]
  | cons r rs ih =>
    have hr : r.number_objects = 1 := h r (by simp)
    have ihr : totN rs = (rs.length : Int) := ih (fun x hx => h x (by simp [hx]))
    simp only [totN, List.map_cons, List.sum_cons, List.length_cons] at *
    rw [hr, ihr]
    push_cast
    ring

/-! ## Claim theorems -/

/-- C10: the unguarded `counters[-1]` access in `count_list` is always in
bounds before `finalise()` is called — from the constructor state every
sequence of `count_list` calls succeeds (never the `none` that models the
`IndexError`) and leaves the stack non-empty — while after `finalise()` a
`count_list` call with a non-empty batch indexes the now-empty stack and
fails (`none`). -/
theorem c10_top_access_safety :
    (∀ (sep : Char) (base : List Char) (dep lim now0 ep : Int) (store0 : Store)
        (bs : List (List Prefix)),
      ∃ st', countBatches (S3Counter.init sep base dep lim now0 ep store0) bs = some st' ∧
        st'.counters ≠ []) ∧
    (∀ (st : S3Counter) (r : Prefix) (rs : List Prefix),
      countList (finalise st) (r :: rs) = none) := by
  constructor
  · intro sep base dep lim now0 ep store0 bs
    obtain ⟨st', e, S⟩ := countBatches_steps bs
      (S3Counter.init sep base dep lim now0 ep store0) (by simp [S3Counter.init])
    exact ⟨st', e, S.ne⟩
  · intro st r rs
    have hc := finalise_counters st
    simp [countList, clAux, hc]

/-- C1: total conservation — for every sequence of well-formed leaf records
(each carrying `number_objects = 1`), processed through `count_list` in any
batching and finalised, the last accumulator reported (the root, under the
configured starting prefix) carries `number_objects` equal to the number of
records processed and `size` equal to the sum of the records' sizes, for
every depth, display limit and batch shape. -/
theorem c1_total_conservation (sep : Char) (base : List Char) (dep lim now0 ep : Int)
    (store0 : Store) (bs : List (List Prefix))
    (hwf : ∀ b ∈ bs, ∀ r ∈ b, r.number_objects = 1) :
    ∃ st' : S3Counter,
      countBatches (S3Counter.init sep base dep lim now0 ep store0) bs = some st' ∧
      ∃ o w bd, (finalise st').log.getLast? =
        some (Event.rep (bs.flatten.length : Int) (totS bs.flatten) o w (repKeyK base) bd) := by
  obtain ⟨st', e, S⟩ := countBatches_steps bs
    (S3Counter.init sep base dep lim now0 ep store0) (by simp [S3Counter.init])
  refine ⟨st', e, ?_⟩
  obtain ⟨bd, hlast⟩ := finalise_lastRep st'.counters.length st' le_rfl S.ne
  have hn : stackN st' = (bs.flatten.length : Int) := by
    rw [S.n_eq]
    have h0 : stackN (S3Counter.init sep base dep lim now0 ep store0) = 0 := by
      simp [stackN, S3Counter.init, Prefix.blank]
    rw [h0, totN_of_ones _ (fun r hr => ?_)]
    · ring
    · obtain ⟨b, hb, hrb⟩ := List.mem_flatten.mp hr
      exact hwf b hb r hrb
  have hs : stackS st' = totS bs.flatten := by
    rw [S.s_eq]
    have h0 : stackS (S3Counter.init sep base dep lim now0 ep store0) = 0 := by
      simp [stackS, S3Counter.init, Prefix.blank]
    rw [h0]
    ring
  have hk : (keysOf st').headD [] = base := by
    rw [S.hd_eq]
    simp [keysOf, S3Counter.init, Prefix.blank]
  rw [hn, hs, hk] at hlast
  exact ⟨_, _, bd, hlast⟩

theorem c1_witness :
    (∀ b ∈ [[recAX], [recF]], ∀ r ∈ b, r.number_objects = 1) ∧
    (∃ st' : S3Counter,
      countBatches (S3Counter.init '/' [] 1 20 100 0 exStore) [[recAX], [recF]] = some st' ∧
      ∃ o w bd, (finalise st').log.getLast? =
        some (Event.rep (([[recAX], [recF]] : List (List Prefix)).flatten.length : Int)
          (totS ([[recAX], [recF]] : List (List Prefix)).flatten) o w (repKeyK []) bd)) :=
  ⟨by decide, c1_total_conservation '/' [] 1 20 100 0 exStore [[recAX], [recF]] (by decide)⟩

/-- C8: bottom-up report order — every popping loop (the realignment pops of
`_set_prefix` as well as the final drain of `finalise`) appends to the log
exactly the reports of the entries it removes, deepest first (the dropped
stack suffix in reverse), so an accumulator is never reported before every
deeper entry above it — its descendants — has been popped, merged into its
parent and reported. -/
theorem c8_bottom_up_report_order :
    (∀ (st : S3Counter) (t : Nat),
      (popUntilLen st t).log.map evKey =
        st.log.map evKey ++ ((st.counters.map (fun c => repKeyK c.key)).drop t).reverse) ∧
    (∀ st : S3Counter,
      (finalise st).log.map evKey =
        st.log.map evKey ++ (st.counters.map (fun c => repKeyK c.key)).reverse) := by
  constructor
  · intro st t
    exact popUntilLen_logKeys st.counters.length st t le_rfl
  · intro st
    have h := popUntilLen_logKeys st.counters.length st 0 le_rfl
    simpa [finalise] using h


/-- C9 counterexample: with one good page `[a/x]` followed by a failing
fetch, the orchestrator returns a failed run whose log is empty — the two
accumulators open at the failure point (root and `a/`) are never flushed or
reported, because `finalise()` sits inside the `try:` block and the
`except:` clause re-raises without calling it.  The claim that `finalise()`
is still invoked on failure is false on this input. -/
theorem c9_cex_no_flush_on_failure :
    outcomeFailed (diskUsageRun exInit [some [recAX], none]) = true ∧
    (outcomeState (diskUsageRun exInit [some [recAX], none])).log = [] ∧
    (outcomeState (diskUsageRun exInit [some [recAX], none])).counters.length = 2 := by
  decide

/-- C9 (amended): if the page source fails mid-run, the orchestrator stops
pulling pages and surfaces the failure distinctly from success, but it does
not invoke `finalise()` — the failed outcome carries exactly the state after
the last completed fold (no drain reports), whereas an error-free run ends
with `finalise` applied. -/
theorem c9_failure_semantics (ps : List (List Prefix)) (rest : List (Option (List Prefix)))
    (st : S3Counter) (h : st.counters ≠ []) :
    ∃ st', countBatches st ps = some st' ∧
      diskUsageRun st (ps.map Option.some ++ none :: rest) = .failed st' ∧
      diskUsageRun st (ps.map Option.some) = .ok (finalise st') := by
  induction ps generalizing st with
  | nil => exact ⟨st, rfl, rfl, rfl⟩
  | cons p ps2 ih =>
    obtain ⟨st1, e1, S1⟩ := countList_steps st p h
    obtain ⟨st', e2, h3, h4⟩ := ih st1 S1.ne
    refine ⟨st', ?_, ?_, ?_⟩
    · simp [countBatches, e1, e2]
    · simpa [diskUsageRun, e1] using h3
    · simpa [diskUsageRun, e1] using h4

theorem c9_witness :
    exInit.counters ≠ [] ∧
    (∃ st', countBatches exInit [[recAX]] = some st' ∧
      diskUsageRun exInit (([[recAX]] : List (List Prefix)).map Option.some ++ none :: []) =
        .failed st' ∧
      diskUsageRun exInit (([[recAX]] : List (List Prefix)).map Option.some) =
        .ok (finalise st')) :=
  ⟨by decide, c9_failure_semantics [[recAX]] [] exInit (by decide)⟩

theorem mergeAll_oldest : ∀ (rs : List Prefix) (store : Store) (p : Prefix),
    (mergeAll store p rs).2.oldest = recsMinOld p.oldest rs := by
  intro rs
  induction rs with
  | nil =>
    intro store p
    rfl
  | cons r rs2 ih =>
    intro store p
    have hstep : mergeAll store p (r :: rs2)
        = mergeAll (prefixAdd store p r).1 (prefixAdd store p r).2 rs2 := rfl
    rw [hstep, ih]
    simp [recsMinOld]

theorem mergeAll_newest : ∀ (rs : List Prefix) (store : Store) (p : Prefix),
    (mergeAll store p rs).2.newest = recsMaxNew p.newest rs := by
  intro rs
  induction rs with
  | nil =>
    intro store p
    rfl
  | cons r rs2 ih =>
    intro store p
    have hstep : mergeAll store p (r :: rs2)
        = mergeAll (prefixAdd store p r).1 (prefixAdd store p r).2 rs2 := rfl
    rw [hstep, ih]
    simp [recsMaxNew]

theorem recsMinOld_eq_listMin (v : Int) (r : Prefix) (rs : List Prefix) (h : r.oldest ≤ v) :
    recsMinOld v (r :: rs) = listMin ((r :: rs).map Prefix.oldest) := by
  simp only [recsMinOld, List.foldl_cons, listMin, List.map_cons]
  rw [min_eq_right h, List.foldl_map]

theorem recsMaxNew_eq_listMax (v : Int) (r : Prefix) (rs : List Prefix) (h : v ≤ r.newest) :
    recsMaxNew v (r :: rs) = listMax ((r :: rs).map Prefix.newest) := by
  simp only [recsMaxNew, List.foldl_cons, listMax, List.map_cons]
  rw [max_eq_right h, List.foldl_map]

/-- C7 counterexample: one record, modified at time 200, folded into a blank
accumulator whose defaults were evaluated at import time 100.  The closed
accumulator has count 1 yet reports `oldest = 100` — the blank-accumulator
initialisation value, not the minimum (200) of its constituents'
`LastModified` timestamps.  The claim that the reported extrema are always
actual record timestamps is false on this input. -/
theorem c7_cex_future_timestamp :
    (mergeAll exStore (Prefix.blank 100 0 ['p', '/']) [recFuture]).2.number_objects = 1 ∧
    (mergeAll exStore (Prefix.blank 100 0 ['p', '/']) [recFuture]).2.oldest = 100 ∧
    listMin (([recFuture] : List Prefix).map Prefix.oldest) = 200 ∧
    (100 : Int) ≠ 200 := by
  decide

/-- C7 (amended): for an accumulator built from a blank `Prefix` by folding a
non-empty run of records through `__add__`, the resulting `oldest` and
`newest` are the true minimum and maximum of the constituents' timestamps
provided every constituent timestamp lies between the 1990 epoch default and
the import-time `now` default — the range in which the initialisation
sentinels cannot win the min/max. -/
theorem c7_extrema_range (now0 ep : Int) (k : List Char) (store : Store)
    (r0 : Prefix) (rs : List Prefix)
    (hr : ∀ r ∈ r0 :: rs, ep ≤ r.oldest ∧ r.oldest ≤ now0 ∧ ep ≤ r.newest ∧ r.newest ≤ now0) :
    (mergeAll store (Prefix.blank now0 ep k) (r0 :: rs)).2.oldest =
      listMin ((r0 :: rs).map Prefix.oldest) ∧
    (mergeAll store (Prefix.blank now0 ep k) (r0 :: rs)).2.newest =
      listMax ((r0 :: rs).map Prefix.newest) := by
  constructor
  · rw [mergeAll_oldest]
    exact recsMinOld_eq_listMin now0 r0 rs (hr r0 (by simp)).2.1
  · rw [mergeAll_newest]
    exact recsMaxNew_eq_listMax ep r0 rs (hr r0 (by simp)).2.2.1

theorem c7_witness :
    (∀ r ∈ [recAX, recF], (0 : Int) ≤ r.oldest ∧ r.oldest ≤ 100 ∧
      (0 : Int) ≤ r.newest ∧ r.newest ≤ 100) ∧
    ((mergeAll exStore (Prefix.blank 100 0 ['q', '/']) [recAX, recF]).2.oldest =
        listMin (([recAX, recF] : List Prefix).map Prefix.oldest) ∧
      (mergeAll exStore (Prefix.blank 100 0 ['q', '/']) [recAX, recF]).2.newest =
        listMax (([recAX, recF] : List Prefix).map Prefix.newest)) :=
  ⟨by decide, c7_extrema_range 100 0 ['q', '/'] exStore recAX [recF] (by decide)⟩

/-- C6 (code bug): every blank `Prefix(key=...)` aliases the one dict created
for the default argument `breakdown={}`, and `__add__` mutates it in place —
when a popped child is merged into its parent both operands are that same
dict, so every tier value is doubled.  Processing the sorted records `a/x`
(10 bytes) then `f` (5 bytes) one at a time with depth 1 closes `a/` with
`size = 10` but `tierBreakdown = {STANDARD: 20}`, and then the root with
`size = 15` but `tierBreakdown = {STANDARD: 25}`: the invariant that the
breakdown byte totals sum to `size` — and that distinct accumulators have
independent breakdown mappings — is violated by the code. -/
theorem c6_shared_breakdown_violation :
    (logOf ((foldSingles exInit [recAX, recF]).map finalise)).getD 0 (Event.omission []) =
      Event.rep 1 10 50 50 ['a', '/'] [("STANDARD", 20)] ∧
    (logOf ((foldSingles exInit [recAX, recF]).map finalise)).getD 1 (Event.omission []) =
      Event.rep 2 15 50 60 ['.'] [("STANDARD", 25)] ∧
    dget [("STANDARD", 20)] "STANDARD" ≠ (10 : Int) ∧
    dget [("STANDARD", 25)] "STANDARD" ≠ (15 : Int) ∧
    (Prefix.blank 100 0 ['a', '/']).bd = (Prefix.blank 100 0 ['b', '/']).bd := by
  decide


/-! ## Value-level lemmas about the breakdown merge -/

theorem dget_append (A B : Dict) (k : Tier) :
    dget (A ++ B) k = if (dkeys A).contains k then dget A k else dget B k := by
  induction A with
  | nil => simp [dkeys, dget]
  | cons kv A2 ih =>
    obtain ⟨k1, v1⟩ := kv
    by_cases h : k1 = k
    · simp [dget, dkeys, h]
    · have hb : (k == k1) = false := beq_eq_false_iff_ne.mpr (fun he => h he.symm)
      simp only [List.cons_append, dget, dkeys, List.map_cons, List.contains_cons, if_neg h,
        hb, Bool.false_or]
      simpa [dkeys] using ih

theorem dget_zero_of_not_mem (d : Dict) (k : Tier) (h : ¬ (dkeys d).contains k = true) :
    dget d k = 0 := by
  induction d with
  | nil => rfl
  | cons kv d2 ih =>
    obtain ⟨k1, v1⟩ := kv
    by_cases hk : k1 = k
    · exfalso
      apply h
      simp [dkeys, hk]
    · rw [dget, if_neg hk]
      apply ih
      intro hc
      apply h
      simp [dkeys] at hc ⊢
      exact Or.inr hc

theorem dget_dmap (d2 : Dict) (d : Dict) (k : Tier) (h : (dkeys d).contains k = true) :
    dget (d.map (fun kv => (kv.1, kv.2 + dget d2 kv.1))) k = dget d k + dget d2 k := by
  induction d with
  | nil => simp [dkeys] at h
  | cons kv d3 ih =>
    obtain ⟨k1, v1⟩ := kv
    by_cases hk : k1 = k
    · subst hk
      simp [dget]
    · simp only [List.map_cons, dget, if_neg hk]
      apply ih
      simp [dkeys] at h
      rcases h with h | h
      · exact absurd h.symm hk
      · simpa [dkeys] using h

theorem dget_filter_keep (d : Dict) (p : Tier × Int → Bool) (k : Tier)
    (hp : ∀ v : Int, p (k, v) = true) : dget (d.filter p) k = dget d k := by
  induction d with
  | nil => rfl
  | cons kv d2 ih =>
    obtain ⟨k1, v1⟩ := kv
    by_cases hk : k1 = k
    · subst hk
      rw [List.filter_cons, hp v1]
      simp [dget]
    · rw [List.filter_cons]
      by_cases hpv : p (k1, v1) = true
      · rw [if_pos hpv]
        simp only [dget, if_neg hk]
        exact ih
      · rw [if_neg hpv, ih]
        simp [dget, if_neg hk]

theorem dkeys_dmap (d2 : Dict) (d : Dict) :
    dkeys (d.map (fun kv => (kv.1, kv.2 + dget d2 kv.1))) = dkeys d := by
  simp [dkeys, List.map_map]

theorem dget_dmergeVals (d1 d2 : Dict) (k : Tier) :
    dget (dmergeVals d1 d2) k = dget d1 k + dget d2 k := by
  unfold dmergeVals
  rw [dget_append, dkeys_dmap]
  by_cases h : (dkeys d1).contains k
  · rw [if_pos h, dget_dmap d2 d1 k h]
  · rw [if_neg h, dget_filter_keep d2 _ k (fun v => by simpa using h),
      dget_zero_of_not_mem d1 k h]
    ring

theorem addVals_assoc (a b c : Prefix) :
    addVals (addVals a b) c = addVals a (addVals b c) := by
  simp [addVals, min_assoc, max_assoc, add_assoc]

theorem addVals_comm_fields (a b : Prefix) :
    (addVals a b).number_objects = (addVals b a).number_objects ∧
    (addVals a b).size = (addVals b a).size ∧
    (addVals a b).oldest = (addVals b a).oldest ∧
    (addVals a b).newest = (addVals b a).newest := by
  refine ⟨?_, ?_, ?_, ?_⟩
  · simp [addVals]
    ring
  · simp [addVals]
    ring
  · simp [addVals, min_comm]
  · simp [addVals, max_comm]

theorem totN_perm {l1 l2 : List Prefix} (h : l1.Perm l2) : totN l1 = totN l2 :=
  List.Perm.sum_eq (h.map _)

theorem totS_perm {l1 l2 : List Prefix} (h : l1.Perm l2) : totS l1 = totS l2 :=
  List.Perm.sum_eq (h.map _)

theorem recsMinOld_perm (v : Int) {l1 l2 : List Prefix} (h : l1.Perm l2) :
    recsMinOld v l1 = recsMinOld v l2 := by
  unfold recsMinOld
  induction h generalizing v with
  | nil => rfl
  | cons x _ ih => simp only [List.foldl_cons]; exact ih _
  | swap x y l =>
    simp only [List.foldl_cons]
    rw [min_right_comm]
  | trans _ _ ih1 ih2 => rw [ih1, ih2]

theorem recsMaxNew_perm (v : Int) {l1 l2 : List Prefix} (h : l1.Perm l2) :
    recsMaxNew v l1 = recsMaxNew v l2 := by
  unfold recsMaxNew
  induction h generalizing v with
  | nil => rfl
  | cons x _ ih => simp only [List.foldl_cons]; exact ih _
  | swap x y l =>
    simp only [List.foldl_cons]
    rw [sup_right_comm]
  | trans _ _ ih1 ih2 => rw [ih1, ih2]

/-- The final root report of a full run, as a function of the concatenated
record stream alone. -/
theorem root_report_formula (sep : Char) (base : List Char) (dep lim now0 ep : Int)
    (store0 : Store) (bs : List (List Prefix)) :
    ∃ st' bd, countBatches (S3Counter.init sep base dep lim now0 ep store0) bs = some st' ∧
      (finalise st').log.getLast? = some (Event.rep (totN bs.flatten) (totS bs.flatten)
        (recsMinOld now0 bs.flatten) (recsMaxNew ep bs.flatten) (repKeyK base) bd) := by
  obtain ⟨st', e, S⟩ := countBatches_steps bs
    (S3Counter.init sep base dep lim now0 ep store0) (by simp [S3Counter.init])
  obtain ⟨bd, hlast⟩ := finalise_lastRep st'.counters.length st' le_rfl S.ne
  have hminit : listMin ((S3Counter.init sep base dep lim now0 ep store0).counters.map
      Prefix.oldest) = now0 := by
    simp [S3Counter.init, Prefix.blank, listMin]
  have hmaxinit : listMax ((S3Counter.init sep base dep lim now0 ep store0).counters.map
      Prefix.newest) = ep := by
    simp [S3Counter.init, Prefix.blank, listMax]
  have hn : stackN st' = totN bs.flatten := by
    rw [S.n_eq]
    have h0 : stackN (S3Counter.init sep base dep lim now0 ep store0) = 0 := by
      simp [stackN, S3Counter.init, Prefix.blank]
    rw [h0]
    ring
  have hs : stackS st' = totS bs.flatten := by
    rw [S.s_eq]
    have h0 : stackS (S3Counter.init sep base dep lim now0 ep store0) = 0 := by
      simp [stackS, S3Counter.init, Prefix.blank]
    rw [h0]
    ring
  have hmin : listMin (st'.counters.map Prefix.oldest) = recsMinOld now0 bs.flatten := by
    have hh := S.omin (by rw [hminit]; simp [S3Counter.init])
    rwa [hminit] at hh
  have hmax : listMax (st'.counters.map Prefix.newest) = recsMaxNew ep bs.flatten := by
    have hh := S.nmax (by rw [hmaxinit]; simp [S3Counter.init])
    rwa [hmaxinit] at hh
  have hk : (keysOf st').headD [] = base := by
    rw [S.hd_eq]
    simp [keysOf, S3Counter.init, Prefix.blank]
  rw [hn, hs, hmin, hmax, hk] at hlast
  exact ⟨st', bd, e, hlast⟩

/-- C3 counterexample: the same two sorted records `a/x` (10 bytes) and `f`
(5 bytes), with identical configuration, processed once as the single batch
`[[a/x, f]]` and once as `[[a/x], [f]]`: the final root accumulator's tier
breakdown is `{STANDARD: 15}` in the first batching but `{STANDARD: 25}` in
the second (the extra pop of `a/` doubled the shared breakdown dict), so the
final root accumulator is not identical across batchings in its tier
breakdown, refuting the claim as stated. -/
theorem c3_cex_breakdown_not_invariant :
    (Option.map (fun st => (finalise st).log.map evBd) (countBatches exInit [[recAX, recF]])) =
      some [[("STANDARD", 15)]] ∧
    (Option.map (fun st => (finalise st).log.map evBd) (countBatches exInit [[recAX], [recF]])) =
      some [[("STANDARD", 20)], [("STANDARD", 25)]] ∧
    ([[recAX, recF]] : List (List Prefix)).flatten = ([[recAX], [recF]] : List (List Prefix)).flatten := by
  decide

/-- C3 (amended): the merge of `__add__` is associative as a value operation
(`addVals`, the exact value content of `__add__` on the non-dict fields, with
the path taken from the left operand) and commutative in the aggregate
fields, and the breakdown merge is a pointwise sum — hence commutative and
associative — as a mapping when the two dicts are distinct objects
(`dmergeVals`); consequently, for any fixed multiset of leaf records, every
choice of batch boundaries yields an identical final root accumulator in
count, size, oldest and newest.  The tier breakdown of the root is NOT
batching-invariant, because every blank accumulator aliases one shared dict
which merging doubles (see the counterexample). -/
theorem c3_merge_algebra_and_invariance :
    (∀ (s : Store) (a b : Prefix), (prefixAdd s a b).2 = addVals a b) ∧
    (∀ a b c : Prefix, addVals (addVals a b) c = addVals a (addVals b c)) ∧
    (∀ a b : Prefix,
      (addVals a b).number_objects = (addVals b a).number_objects ∧
      (addVals a b).size = (addVals b a).size ∧
      (addVals a b).oldest = (addVals b a).oldest ∧
      (addVals a b).newest = (addVals b a).newest) ∧
    (∀ (d1 d2 : Dict) (k : Tier), dget (dmergeVals d1 d2) k = dget d1 k + dget d2 k) ∧
    (∀ (sep : Char) (base : List Char) (dep lim now0 ep : Int) (store0 : Store)
        (bs1 bs2 : List (List Prefix)), bs1.flatten.Perm bs2.flatten →
      ∃ st1 st2 bd1 bd2 N S O W,
        countBatches (S3Counter.init sep base dep lim now0 ep store0) bs1 = some st1 ∧
        countBatches (S3Counter.init sep base dep lim now0 ep store0) bs2 = some st2 ∧
        (finalise st1).log.getLast? = some (Event.rep N S O W (repKeyK base) bd1) ∧
        (finalise st2).log.getLast? = some (Event.rep N S O W (repKeyK base) bd2)) := by
  refine ⟨fun s a b => rfl, addVals_assoc, addVals_comm_fields, dget_dmergeVals, ?_⟩
  intro sep base dep lim now0 ep store0 bs1 bs2 hperm
  obtain ⟨st1, bd1, e1, h1⟩ := root_report_formula sep base dep lim now0 ep store0 bs1
  obtain ⟨st2, bd2, e2, h2⟩ := root_report_formula sep base dep lim now0 ep store0 bs2
  rw [totN_perm hperm, totS_perm hperm, recsMinOld_perm now0 hperm,
    recsMaxNew_perm ep hperm] at h1
  exact ⟨st1, st2, bd1, bd2, _, _, _, _, e1, e2, h1, h2⟩

theorem c3_witness :
    (([[recAX, recF]] : List (List Prefix)).flatten.Perm
      (([[recAX], [recF]] : List (List Prefix)).flatten)) ∧
    ((∀ (s : Store) (a b : Prefix), (prefixAdd s a b).2 = addVals a b) ∧
    (∀ a b c : Prefix, addVals (addVals a b) c = addVals a (addVals b c)) ∧
    (∀ a b : Prefix,
      (addVals a b).number_objects = (addVals b a).number_objects ∧
      (addVals a b).size = (addVals b a).size ∧
      (addVals a b).oldest = (addVals b a).oldest ∧
      (addVals a b).newest = (addVals b a).newest) ∧
    (∀ (d1 d2 : Dict) (k : Tier), dget (dmergeVals d1 d2) k = dget d1 k + dget d2 k) ∧
    (∀ (sep : Char) (base : List Char) (dep lim now0 ep : Int) (store0 : Store)
        (bs1 bs2 : List (List Prefix)), bs1.flatten.Perm bs2.flatten →
      ∃ st1 st2 bd1 bd2 N S O W,
        countBatches (S3Counter.init sep base dep lim now0 ep store0) bs1 = some st1 ∧
        countBatches (S3Counter.init sep base dep lim now0 ep store0) bs2 = some st2 ∧
        (finalise st1).log.getLast? = some (Event.rep N S O W (repKeyK base) bd1) ∧
        (finalise st2).log.getLast? = some (Event.rep N S O W (repKeyK base) bd2))) :=
  ⟨by decide, c3_merge_algebra_and_invariance⟩


/-! ## Leaf display accounting (C4) -/

theorem addTop_log (st : S3Counter) (d : Prefix) : (addTop st d).log = st.log := by
  unfold addTop
  split
  · rfl
  · rfl

theorem addTop_sep (st : S3Counter) (d : Prefix) : (addTop st d).separator = st.separator := by
  unfold addTop
  split
  · rfl
  · rfl

theorem addTop_depth (st : S3Counter) (d : Prefix) : (addTop st d).depth = st.depth := by
  unfold addTop
  split
  · rfl
  · rfl

theorem addTop_limit (st : S3Counter) (d : Prefix) : (addTop st d).limit = st.limit := by
  unfold addTop
  split
  · rfl
  · rfl

theorem addTop_rad (st : S3Counter) (d : Prefix) :
    (addTop st d).reports_at_depth = st.reports_at_depth := by
  unfold addTop
  split
  · rfl
  · rfl

theorem fastAdd_log : ∀ (l : List Prefix) (st : S3Counter), (fastAdd st l).log = st.log := by
  intro l
  induction l with
  | nil => intro st; rfl
  | cons d ds ih =>
    intro st
    calc (fastAdd st (d :: ds)).log = (fastAdd (addTop st d) ds).log := rfl
    _ = (addTop st d).log := ih _
    _ = st.log := addTop_log st d

theorem cmpP_congr (a b r : Prefix) (dep : Int) (sep : Char) (h : a.key = b.key) :
    cmpP a r dep sep = cmpP b r dep sep := by
  unfold cmpP
  rw [h]

theorem addTop_topKey (st : S3Counter) (d : Prefix) (h : st.counters ≠ []) :
    (topOf (addTop st d)).key = (topOf st).key := by
  obtain ⟨L, c, hL0⟩ := (List.eq_nil_or_concat st.counters).resolve_left h
  have hL : st.counters = L ++ [c] := by simpa using hL0
  rw [addTop_eq st d L c hL]
  unfold topOf
  simp [hL, List.getLast?_concat]

theorem topOf_key_of_counters_eq (st st' : S3Counter) (h : st'.counters = st.counters) :
    topOf st' = topOf st := by
  unfold topOf
  rw [h]

@[simp] theorem reportOmission_log (st : S3Counter) :
    (reportOmission st).log =
      st.log ++ [Event.omission ((st.counters.getLast?).getD Prefix.dummy).key] := rfl

theorem repCount_append (a b : List Event) : repCount (a ++ b) = repCount a + repCount b := by
  simp [repCount]

theorem omCount_append (a b : List Event) : omCount (a ++ b) = omCount a + omCount b := by
  simp [omCount]

theorem slowLeafRep_pos (st2 : S3Counter) (d : Prefix)
    (hc : st2.reports_at_depth < st2.limit ∧ d.pdepth st2.separator ≤ st2.depth) :
    slowLeafRep st2 d =
      (if st2.reports_at_depth + 1 = st2.limit then
        reportOmission { (reportEv st2 d) with reports_at_depth := st2.reports_at_depth + 1 }
      else { (reportEv st2 d) with reports_at_depth := st2.reports_at_depth + 1 }) := by
  unfold slowLeafRep
  rw [if_pos hc]
  dsimp only [reportEv]

theorem slowLeafRep_neg (st2 : S3Counter) (d : Prefix)
    (hc : ¬ (st2.reports_at_depth < st2.limit ∧ d.pdepth st2.separator ≤ st2.depth)) :
    slowLeafRep st2 d = st2 := by
  unfold slowLeafRep
  rw [if_neg hc]

theorem slowRecs_leaf_counts :
    ∀ (rs : List Prefix) (st : S3Counter), st.counters ≠ [] →
      (∀ r ∈ rs, cmpP (topOf st) r st.depth st.separator = true) →
      (∀ r ∈ rs, r.pdepth st.separator ≤ st.depth) →
      ((repCount (slowRecs st rs).log : Int) =
        (repCount st.log : Int) +
          max 0 (min (st.limit - st.reports_at_depth) (rs.length : Int))) ∧
      ((omCount (slowRecs st rs).log : Int) =
        (omCount st.log : Int) +
          (if st.reports_at_depth < st.limit ∧
              st.limit ≤ st.reports_at_depth + (rs.length : Int)
           then 1 else 0)) := by
  intro rs
  induction rs with
  | nil =>
    intro st h hcmp hdep
    constructor
    · simp only [slowRecs, List.length_nil, Nat.cast_zero]
      omega
    · simp only [slowRecs, List.length_nil, Nat.cast_zero]
      have hno : ¬ (st.reports_at_depth < st.limit ∧
          st.limit ≤ st.reports_at_depth + 0) := by omega
      rw [if_neg hno]
      omega
  | cons d rs2 ih =>
    intro st h hcmp hdep
    have hc1 : cmpP (topOf st) d st.depth st.separator = true := hcmp d (by simp)
    have hd1 : d.pdepth st.separator ≤ st.depth := hdep d (by simp)
    have hstep : slowStep st d = slowLeafRep (addTop st d) d := by
      unfold slowStep
      rw [if_pos hc1]
    have hne2 : (addTop st d).counters ≠ [] := (addTop_steps st d h).ne
    have hne3 : (slowStep st d).counters ≠ [] := by
      rw [hstep, slowLeafRep_counters]
      exact hne2
    have htop : (topOf (slowStep st d)).key = (topOf st).key := by
      rw [hstep, topOf_key_of_counters_eq _ _ (slowLeafRep_counters _ d)]
      exact addTop_topKey st d h
    have hsep : (slowStep st d).separator = st.separator := by
      rw [hstep, slowLeafRep_sep, addTop_sep]
    have hdepth : (slowStep st d).depth = st.depth := by
      rw [hstep, slowLeafRep_depth, addTop_depth]
    have hlim : (slowStep st d).limit = st.limit := by
      rw [hstep, slowLeafRep_limit, addTop_limit]
    have hcmp2 : ∀ r ∈ rs2, cmpP (topOf (slowStep st d)) r (slowStep st d).depth
        (slowStep st d).separator = true := by
      intro r hr
      rw [hdepth, hsep, cmpP_congr _ (topOf st) r st.depth st.separator htop]
      exact hcmp r (by simp [hr])
    have hdep2 : ∀ r ∈ rs2, r.pdepth (slowStep st d).separator ≤ (slowStep st d).depth := by
      intro r hr
      rw [hdepth, hsep]
      exact hdep r (by simp [hr])
    obtain ⟨ihr, iho⟩ := ih (slowStep st d) hne3 hcmp2 hdep2
    have hrecs : slowRecs st (d :: rs2) = slowRecs (slowStep st d) rs2 := rfl
    have hcond0 : ((addTop st d).reports_at_depth < (addTop st d).limit ∧
        d.pdepth (addTop st d).separator ≤ (addTop st d).depth) ↔
        (st.reports_at_depth < st.limit) := by
      rw [addTop_rad, addTop_limit, addTop_sep, addTop_depth]
      constructor
      · intro hx
        exact hx.1
      · intro hx
        exact ⟨hx, hd1⟩
    by_cases hk : st.reports_at_depth < st.limit
    · have hsr := slowLeafRep_pos (addTop st d) d (hcond0.mpr hk)
      rw [addTop_rad, addTop_limit] at hsr
      by_cases hfull : st.reports_at_depth + 1 = st.limit
      · rw [if_pos hfull] at hsr
        have hrep3 : (repCount (slowStep st d).log : Int) = (repCount st.log : Int) + 1 := by
          rw [hstep, hsr]
          simp [repCount_append, omCount_append, addTop_log, repCount, evIsRep]
        have hom3 : (omCount (slowStep st d).log : Int) = (omCount st.log : Int) + 1 := by
          rw [hstep, hsr]
          simp [omCount_append, addTop_log, omCount, evIsRep]
        have hrad3 : (slowStep st d).reports_at_depth = st.reports_at_depth + 1 := by
          rw [hstep, hsr]
          rfl
        constructor
        · rw [hrecs, ihr, hrep3, hrad3, hlim]
          simp only [List.length_cons]
          push_cast
          omega
        · rw [hrecs, iho, hom3, hrad3, hlim]
          simp only [List.length_cons]
          push_cast
          split_ifs <;> omega
      · rw [if_neg hfull] at hsr
        have hrep3 : (repCount (slowStep st d).log : Int) = (repCount st.log : Int) + 1 := by
          rw [hstep, hsr]
          simp [repCount_append, addTop_log, repCount, evIsRep]
        have hom3 : (omCount (slowStep st d).log : Int) = (omCount st.log : Int) := by
          rw [hstep, hsr]
          simp [omCount_append, addTop_log, omCount, evIsRep]
        have hrad3 : (slowStep st d).reports_at_depth = st.reports_at_depth + 1 := by
          rw [hstep, hsr]
        constructor
        · rw [hrecs, ihr, hrep3, hrad3, hlim]
          simp only [List.length_cons]
          push_cast
          omega
        · rw [hrecs, iho, hom3, hrad3, hlim]
          simp only [List.length_cons]
          push_cast
          split_ifs <;> omega
    · have hsr : slowStep st d = addTop st d := by
        rw [hstep, slowLeafRep_neg]
        intro hx
        exact hk (hcond0.mp hx)
      have hrep3 : (repCount (slowStep st d).log : Int) = (repCount st.log : Int) := by
        rw [hsr, addTop_log]
      have hom3 : (omCount (slowStep st d).log : Int) = (omCount st.log : Int) := by
        rw [hsr, addTop_log]
      have hrad3 : (slowStep st d).reports_at_depth = st.reports_at_depth := by
        rw [hsr, addTop_rad]
      constructor
      · rw [hrecs, ihr, hrep3, hrad3, hlim]
        simp only [List.length_cons]
        push_cast
        omega
      · rw [hrecs, iho, hom3, hrad3, hlim]
        simp only [List.length_cons]
        push_cast
        split_ifs <;> omega


/-- C4 counterexample: a single record with key `a` (depth 1 ≤ D = 1) folded
through `count_list` from the fresh counter takes the fast bulk path and is
never emitted as a leaf report, although the display limit is 20 and the
actual leaf count at that level is 1 — so the number of emitted leaf reports
(0) is not `min(L, actual leaf count)` (1), refuting the claim as stated. -/
theorem c4_cex_fast_path_skips_leaf :
    logOf (countList exInit [recA]) = [] ∧
    recA.pdepth '/' ≤ exInit.depth ∧
    (1 : Int) ≤ exInit.limit := by
  decide

/-- C4 (amended): leaf display is a slow-path behaviour.  For records folded
through the per-record slow loop inside one enclosing accumulator (every
record matching the open context and no deeper than the rollup depth), with
the display counter freshly reset, the number of individually emitted leaf
reports is exactly `min(L, slow-path leaf count)`, and exactly one omission
marker is emitted iff that count reaches `L` (the marker fires the moment
the L-th report is made, even if nothing further follows); every record,
displayed or not, is folded into the accumulator (stack totals grow by the
records' totals), and records folded through the fast bulk path are never
individually emitted. -/
theorem c4_leaf_display_cap (st : S3Counter) (rs : List Prefix)
    (h : st.counters ≠ []) (hrad : st.reports_at_depth = 0) (hlim : 0 ≤ st.limit)
    (hcmp : ∀ r ∈ rs, cmpP (topOf st) r st.depth st.separator = true)
    (hdep : ∀ r ∈ rs, r.pdepth st.separator ≤ st.depth) :
    ((repCount (slowRecs st rs).log : Int) =
        (repCount st.log : Int) + min st.limit (rs.length : Int)) ∧
    ((omCount (slowRecs st rs).log : Int) = (omCount st.log : Int) +
        (if 1 ≤ st.limit ∧ st.limit ≤ (rs.length : Int) then 1 else 0)) ∧
    stackN (slowRecs st rs) = stackN st + totN rs ∧
    stackS (slowRecs st rs) = stackS st + totS rs ∧
    (∀ (st2 : S3Counter) (l2 : List Prefix), (fastAdd st2 l2).log = st2.log) := by
  obtain ⟨hrep, hom⟩ := slowRecs_leaf_counts rs st h hcmp hdep
  rw [hrad] at hrep hom
  refine ⟨?_, ?_, (slowRecs_steps rs st h).n_eq, (slowRecs_steps rs st h).s_eq,
    fun st2 l2 => fastAdd_log l2 st2⟩
  · rw [hrep]
    omega
  · rw [hom]
    congr 1
    rw [show (0 : Int) + (rs.length : Int) = (rs.length : Int) by ring]
    have hiff : (0 < st.limit ∧ st.limit ≤ (rs.length : Int)) ↔
        (1 ≤ st.limit ∧ st.limit ≤ (rs.length : Int)) := by omega
    by_cases hc : 0 < st.limit ∧ st.limit ≤ (rs.length : Int)
    · rw [if_pos hc, if_pos (hiff.mp hc)]
    · rw [if_neg hc, if_neg (fun hx => hc (hiff.mpr hx))]

theorem c4_witness :
    (exInit.counters ≠ [] ∧ exInit.reports_at_depth = 0 ∧ (0 : Int) ≤ exInit.limit ∧
      (∀ r ∈ [recA], cmpP (topOf exInit) r exInit.depth exInit.separator = true) ∧
      (∀ r ∈ [recA], r.pdepth exInit.separator ≤ exInit.depth)) ∧
    (((repCount (slowRecs exInit [recA]).log : Int) =
        (repCount exInit.log : Int) + min exInit.limit (([recA] : List Prefix).length : Int)) ∧
    ((omCount (slowRecs exInit [recA]).log : Int) = (omCount exInit.log : Int) +
        (if 1 ≤ exInit.limit ∧ exInit.limit ≤ (([recA] : List Prefix).length : Int)
         then 1 else 0)) ∧
    stackN (slowRecs exInit [recA]) = stackN exInit + totN [recA] ∧
    stackS (slowRecs exInit [recA]) = stackS exInit + totS [recA] ∧
    (∀ (st2 : S3Counter) (l2 : List Prefix), (fastAdd st2 l2).log = st2.log)) :=
  ⟨⟨by decide, by decide, by decide, by decide, by decide⟩,
    c4_leaf_display_cap exInit [recA] (by decide) (by decide) (by decide)
      (by decide) (by decide)⟩


/-! ## Alignment machinery for the batch/record equivalence (C2) -/

theorem cmpP_via_cKey (a b : Prefix) (dep : Int) (sep : Char) :
    cmpP a b dep sep =
      (decide (dep = 0) || decide (cKey sep dep a.key = cKey sep dep b.key)) := by
  unfold cmpP cKey
  by_cases h0 : dep = 0
  · simp [h0]
  · by_cases hp : 0 < dep
    · simp [h0, hp]
    · simp [h0, hp]

theorem alignChain_length (sep : Char) : ∀ (ps : List (List Char)) (pi : List Char),
    (alignChain sep pi ps).length = ps.length := by
  intro ps
  induction ps with
  | nil => intro pi; rfl
  | cons p rest ih =>
    intro pi
    simp [alignChain, ih]

theorem alignChain_getD (sep : Char) : ∀ (ps : List (List Char)) (pi : List Char) (j : Nat),
    j < ps.length →
    (alignChain sep pi ps).getD j [] =
      (ps.take (j + 1)).foldl (fun a q => a ++ q ++ [sep]) pi := by
  intro ps
  induction ps with
  | nil =>
    intro pi j hj
    simp at hj
  | cons p rest ih =>
    intro pi j hj
    cases j with
    | zero => simp [alignChain]
    | succ j2 =>
      simp only [alignChain, List.getD_cons_succ, List.take_succ_cons, List.foldl_cons]
      exact ih (pi ++ p ++ [sep]) j2 (by simpa using hj)

theorem addTop_keysOf (st : S3Counter) (d : Prefix) (h : st.counters ≠ []) :
    keysOf (addTop st d) = keysOf st := by
  obtain ⟨L, c, hL0⟩ := (List.eq_nil_or_concat st.counters).resolve_left h
  have hL : st.counters = L ++ [c] := by simpa using hL0
  rw [addTop_eq st d L c hL]
  simp [keysOf, hL]

theorem keysOf_getD (st : S3Counter) (i : Nat) :
    (st.counters.getD i Prefix.dummy).key = (keysOf st).getD i [] := by
  unfold keysOf
  generalize st.counters = l
  induction l generalizing i with
  | nil => cases i <;> simp [Prefix.dummy]
  | cons a t ih =>
    cases i with
    | zero => simp
    | succ j => simpa using ih j

theorem drop_getD_cons {α : Type _} (l : List α) (i : Nat) (d : α) (h : i < l.length) :
    l.drop i = l.getD i d :: l.drop (i + 1) := by
  induction l generalizing i with
  | nil => simp at h
  | cons a t ih =>
    cases i with
    | zero => simp
    | succ j =>
      simp only [List.drop_succ_cons, List.getD_cons_succ]
      exact ih j (by simpa using h)


theorem keysOf_push (st : S3Counter) (r : Int) (k : List Char) :
    keysOf { st with reports_at_depth := r,
                     counters := st.counters ++ [Prefix.blank st.now0 st.ep1990 k] } =
      keysOf st ++ [k] := by
  simp [keysOf, Prefix.blank]

theorem keysOf_length (st : S3Counter) : (keysOf st).length = st.counters.length := by
  simp [keysOf]

theorem spStep_keys (st : S3Counter) (pi2 : List Char) (ci : Nat)
    (_hci : 1 ≤ ci) (hlen : ci ≤ st.counters.length) :
    ∃ suffix, keysOf (spStep st pi2 ci) = (keysOf st).take ci ++ pi2 :: suffix := by
  unfold spStep
  dsimp only
  by_cases hcond : ci < st.counters.length ∧ ¬ ((st.counters.getD ci Prefix.dummy).key = pi2)
  · rw [if_pos hcond]
    have hk1 : keysOf (popUntilLen { st with reports_at_depth := 0 } ci) =
        (keysOf st).take ci := by
      have hh := popUntilLen_keysOf { st with reports_at_depth := 0 } ci
      simpa [keysOf] using hh
    have hl1 : (popUntilLen { st with reports_at_depth := 0 } ci).counters.length = ci := by
      have hh := popUntilLen_length { st with reports_at_depth := 0 } ci
      simp at hh
      omega
    rw [if_pos (le_of_eq hl1)]
    refine ⟨[], ?_⟩
    rw [keysOf_push, hk1]
  · rw [if_neg hcond]
    by_cases hps : st.counters.length ≤ ci
    · rw [if_pos hps]
      rw [keysOf_push]
      refine ⟨[], ?_⟩
      have hfull : (keysOf st).take ci = keysOf st :=
        List.take_of_length_le (by rw [keysOf_length]; omega)
      rw [hfull]
    · rw [if_neg hps]
      push_neg at hcond
      have hklt : ci < st.counters.length := by omega
      have hkey : (st.counters.getD ci Prefix.dummy).key = pi2 := hcond hklt
      refine ⟨(keysOf st).drop (ci + 1), ?_⟩
      have hdrop := drop_getD_cons (keysOf st) ci [] (by rw [keysOf_length]; omega)
      rw [← keysOf_getD, hkey] at hdrop
      calc keysOf st = (keysOf st).take ci ++ (keysOf st).drop ci :=
        (List.take_append_drop ci _).symm
      _ = (keysOf st).take ci ++ pi2 :: (keysOf st).drop (ci + 1) := by rw [hdrop]

theorem spLoop_keys : ∀ (ps : List (List Char)) (st : S3Counter) (pi : List Char) (idx : Nat),
    idx + 1 ≤ st.counters.length → st.counters ≠ [] →
    ∃ suffix, keysOf (spLoop st pi idx ps) =
      (keysOf st).take (idx + 1) ++ alignChain st.separator pi ps ++ suffix := by
  intro ps
  induction ps with
  | nil =>
    intro st pi idx hlen hne
    refine ⟨(keysOf st).drop (idx + 1), ?_⟩
    simp [alignChain, spLoop, List.take_append_drop]
  | cons p rest ih =>
    intro st pi idx hlen hne
    have hrec : spLoop st pi idx (p :: rest) =
        spLoop (spStep st (pi ++ p ++ [st.separator]) (idx + 1))
          (pi ++ p ++ [st.separator]) (idx + 1) rest := rfl
    obtain ⟨suf1, h1⟩ := spStep_keys st (pi ++ p ++ [st.separator]) (idx + 1) (by omega) hlen
    have hS := spStep_steps st (pi ++ p ++ [st.separator]) (idx + 1) hne (by omega)
    have hlen1 : ((keysOf st).take (idx + 1)).length = idx + 1 := by
      rw [List.length_take, keysOf_length]
      omega
    have hlen2 : idx + 1 + 1 ≤
        (spStep st (pi ++ p ++ [st.separator]) (idx + 1)).counters.length := by
      have hh : (spStep st (pi ++ p ++ [st.separator]) (idx + 1)).counters.length =
          ((keysOf st).take (idx + 1)).length + suf1.length + 1 := by
        rw [← keysOf_length, h1]
        simp only [List.length_append, List.length_cons]
        omega
      rw [hh, hlen1]
      omega
    obtain ⟨suf2, h2⟩ := ih (spStep st (pi ++ p ++ [st.separator]) (idx + 1))
      (pi ++ p ++ [st.separator]) (idx + 1) hlen2 hS.ne
    refine ⟨suf2, ?_⟩
    rw [hrec, h2, h1]
    have htake : ((keysOf st).take (idx + 1) ++ (pi ++ p ++ [st.separator]) :: suf1).take
        (idx + 1 + 1) = (keysOf st).take (idx + 1) ++ [pi ++ p ++ [st.separator]] := by
      rw [show (keysOf st).take (idx + 1) ++ (pi ++ p ++ [st.separator]) :: suf1
            = ((keysOf st).take (idx + 1) ++ [pi ++ p ++ [st.separator]]) ++ suf1 by simp]
      apply List.take_left'
      simp [hlen1]
    rw [htake, hS.sep_eq]
    simp [alignChain]

theorem setPfx_keys (st : S3Counter) (k : List Char) (h : st.counters ≠ []) :
    keysOf (setPfx st k) = (keysOf st).headD [] ::
      alignChain st.separator [] (spParts st.separator st.depth k) := by
  unfold setPfx
  dsimp only
  have hlen : 0 + 1 ≤ st.counters.length := by
    have := List.length_pos.mpr h
    omega
  obtain ⟨suf, hk⟩ := spLoop_keys (spParts st.separator st.depth k) st [] 0 hlen h
  rw [popUntilLen_keysOf, hk]
  have h1 : (keysOf st).take 1 = [(keysOf st).headD []] := by
    rcases hke : keysOf st with _ | ⟨a, t⟩
    · exact absurd hke (keysOf_ne st h)
    · simp
  rw [h1]
  rw [show [(keysOf st).headD []] ++
        alignChain st.separator [] (spParts st.separator st.depth k) ++ suf
      = ((keysOf st).headD [] ::
          alignChain st.separator [] (spParts st.separator st.depth k)) ++ suf by simp]
  apply List.take_left'
  simp [alignChain_length]


theorem spLoop_skip : ∀ (ps : List (List Char)) (st : S3Counter) (pi : List Char) (idx : Nat),
    (∀ j, j < ps.length → idx + 1 + j < st.counters.length ∧
      (st.counters.getD (idx + 1 + j) Prefix.dummy).key =
        (ps.take (j + 1)).foldl (fun a q => a ++ q ++ [st.separator]) pi) →
    spLoop st pi idx ps = st := by
  intro ps
  induction ps with
  | nil =>
    intro st pi idx hj
    rfl
  | cons p rest ih =>
    intro st pi idx hj
    obtain ⟨hlt, hkey⟩ := hj 0 (by simp)
    have hkey1 : (st.counters.getD (idx + 1) Prefix.dummy).key =
        pi ++ p ++ [st.separator] := by
      simpa using hkey
    have hstep : spStep st (pi ++ p ++ [st.separator]) (idx + 1) = st := by
      unfold spStep
      dsimp only
      have hc : ¬ ((idx + 1) < st.counters.length ∧
          ¬ ((st.counters.getD (idx + 1) Prefix.dummy).key = pi ++ p ++ [st.separator])) := by
        intro hx
        exact hx.2 hkey1
      rw [if_neg hc]
      have hc2 : ¬ (st.counters.length ≤ idx + 1) := by omega
      rw [if_neg hc2]
    show spLoop (spStep st (pi ++ p ++ [st.separator]) (idx + 1))
      (pi ++ p ++ [st.separator]) (idx + 1) rest = st
    rw [hstep]
    apply ih
    intro j hjr
    obtain ⟨hlt2, hkey2⟩ := hj (j + 1) (by simpa using hjr)
    constructor
    · omega
    · rw [show idx + 1 + 1 + j = idx + 1 + (j + 1) by omega, hkey2]
      simp [List.foldl_cons]

theorem setPfx_noop (st : S3Counter) (k : List Char)
    (hkeys : keysOf st = (keysOf st).headD [] ::
      alignChain st.separator [] (spParts st.separator st.depth k)) :
    setPfx st k = st := by
  unfold setPfx
  dsimp only
  have hlen : st.counters.length = (spParts st.separator st.depth k).length + 1 := by
    rw [← keysOf_length, hkeys]
    simp [alignChain_length]
  have hloop : spLoop st [] 0 (spParts st.separator st.depth k) = st := by
    apply spLoop_skip
    intro j hj
    constructor
    · omega
    · rw [keysOf_getD, hkeys, show 0 + 1 + j = j + 1 by omega, List.getD_cons_succ]
      exact alignChain_getD st.separator _ [] j hj
  rw [hloop, popUntilLen_eq, if_neg (by omega)]


theorem getLastD_mem : ∀ (ds : List Prefix) (d0 : Prefix), ds.getLastD d0 ∈ d0 :: ds := by
  intro ds
  induction ds with
  | nil =>
    intro d0
    simp [List.getLastD]
  | cons e es ih =>
    intro d0
    rw [List.getLastD_cons]
    exact List.mem_cons_of_mem d0 (ih e)

theorem keysOf_congr (st st' : S3Counter) (h : st'.counters = st.counters) :
    keysOf st' = keysOf st := by
  unfold keysOf
  rw [h]

theorem alignedK_ne (st : S3Counter) (P : List (List Char)) (hA : AlignedK st P) :
    st.counters ≠ [] := by
  obtain ⟨k0, hk⟩ := hA
  intro hc
  rw [show keysOf st = [] by simp [keysOf, hc]] at hk
  exact List.noConfusion hk

theorem alignedK_of (st st' : S3Counter) (P : List (List Char)) (hA : AlignedK st P)
    (hk : keysOf st' = keysOf st) (hs : st'.separator = st.separator) :
    AlignedK st' P := by
  obtain ⟨k0, h⟩ := hA
  exact ⟨k0, by rw [hk, hs, h]⟩

theorem alignedK_noop (st : S3Counter) (P : List (List Char)) (k : List Char)
    (hA : AlignedK st P) (hsp : spParts st.separator st.depth k = P) :
    setPfx st k = st := by
  obtain ⟨k0, hk⟩ := hA
  apply setPfx_noop
  rw [hsp, hk]
  simp

theorem clAux_unfold (fuel : Nat) (st : S3Counter) (d0 : Prefix) (ds : List Prefix)
    (hne : st.counters ≠ []) :
    clAux (fuel + 1) st (d0 :: ds) =
      if cmpP (topOf st) ((d0 :: ds).getLastD d0) st.depth st.separator then
        some (fastAdd st (d0 :: ds))
      else if cmpP (topOf (setPfx st d0.key)) ((d0 :: ds).getLastD d0) st.depth st.separator then
        some (fastAdd (setPfx st d0.key) (d0 :: ds))
      else if 8 < (d0 :: ds).length then
        match clAux fuel (setPfx st d0.key) ((d0 :: ds).take ((d0 :: ds).length / 2)) with
        | none => none
        | some st2 => clAux fuel st2 ((d0 :: ds).drop ((d0 :: ds).length / 2))
      else some (slowRecs (setPfx st d0.key) (d0 :: ds)) := by
  obtain ⟨L, c, hL0⟩ := (List.eq_nil_or_concat st.counters).resolve_left hne
  have hL : st.counters = L ++ [c] := by simpa using hL0
  have hx : st.counters.getLast? = some c := by
    rw [hL]
    exact List.getLast?_concat _
  have htop : topOf st = c := by
    unfold topOf
    rw [hx]
    rfl
  have hne1 : (setPfx st d0.key).counters ≠ [] := (setPfx_steps st d0.key hne).ne
  obtain ⟨L1, c1, hL10⟩ := (List.eq_nil_or_concat (setPfx st d0.key).counters).resolve_left hne1
  have hL1 : (setPfx st d0.key).counters = L1 ++ [c1] := by simpa using hL10
  have hx1 : (setPfx st d0.key).counters.getLast? = some c1 := by
    rw [hL1]
    exact List.getLast?_concat _
  have htop1 : topOf (setPfx st d0.key) = c1 := by
    unfold topOf
    rw [hx1]
    rfl
  rw [clAux]
  dsimp only
  rw [hx, htop, htop1]
  dsimp only
  rw [hx1]


theorem countList_cons (st : S3Counter) (d0 : Prefix) (ds : List Prefix)
    (hne : st.counters ≠ []) :
    countList st (d0 :: ds) =
      if cmpP (topOf st) ((d0 :: ds).getLastD d0) st.depth st.separator then
        some (fastAdd st (d0 :: ds))
      else if cmpP (topOf (setPfx st d0.key)) ((d0 :: ds).getLastD d0) st.depth st.separator then
        some (fastAdd (setPfx st d0.key) (d0 :: ds))
      else if 8 < (d0 :: ds).length then
        match clAux ds.length (setPfx st d0.key) ((d0 :: ds).take ((d0 :: ds).length / 2)) with
        | none => none
        | some st2 => clAux ds.length st2 ((d0 :: ds).drop ((d0 :: ds).length / 2))
      else some (slowRecs (setPfx st d0.key) (d0 :: ds)) :=
  clAux_unfold ds.length st d0 ds hne

theorem countList_one (st : S3Counter) (r : Prefix) (hne : st.counters ≠ []) :
    countList st [r] =
      if cmpP (topOf st) r st.depth st.separator then some (addTop st r)
      else if cmpP (topOf (setPfx st r.key)) r st.depth st.separator then
        some (addTop (setPfx st r.key) r)
      else some (slowStep (setPfx st r.key) r) := by
  rw [countList_cons st r [] hne]
  have h1 : ([r].getLastD r) = r := rfl
  rw [h1]
  by_cases hb1 : cmpP (topOf st) r st.depth st.separator = true
  · rw [if_pos hb1, if_pos hb1]
    simp [fastAdd]
  · rw [if_neg hb1, if_neg hb1]
    by_cases hb2 : cmpP (topOf (setPfx st r.key)) r st.depth st.separator = true
    · rw [if_pos hb2, if_pos hb2]
      simp [fastAdd]
    · rw [if_neg hb2, if_neg hb2]
      rw [if_neg (by simp)]
      simp [slowRecs]

theorem singlesFast : ∀ (l : List Prefix) (st : S3Counter), st.counters ≠ [] →
    (∀ r ∈ l, cmpP (topOf st) r st.depth st.separator = true) →
    foldSingles st l = some (fastAdd st l) := by
  intro l
  induction l with
  | nil =>
    intro st h hall
    simp [foldSingles, fastAdd]
  | cons r rs ih =>
    intro st h hall
    have h1 : countList st [r] = some (addTop st r) := by
      rw [countList_one st r h, if_pos (hall r (List.mem_cons_self r rs))]
    have hS := addTop_steps st r h
    have htr : ∀ x ∈ rs,
        cmpP (topOf (addTop st r)) x (addTop st r).depth (addTop st r).separator = true := by
      intro x hx
      rw [hS.dep_eq, hS.sep_eq, cmpP_congr _ _ x st.depth st.separator (addTop_topKey st r h)]
      exact hall x (List.mem_cons_of_mem r hx)
    calc foldSingles st (r :: rs) = foldSingles (addTop st r) rs := by
          rw [foldSingles, h1]
      _ = some (fastAdd (addTop st r) rs) := ih (addTop st r) hS.ne htr
      _ = some (fastAdd st (r :: rs)) := rfl


theorem slowStep_inv (st : S3Counter) (r : Prefix) (P : List (List Char))
    (hA : AlignedK st P)
    (hsp : spParts st.separator st.depth r.key = P)
    (hc : cmpP (topOf st) r st.depth st.separator = false) :
    slowStep st r = slowLeafRep (addTop st r) r ∧
    keysOf (slowStep st r) = keysOf st ∧
    (slowStep st r).separator = st.separator ∧
    (slowStep st r).depth = st.depth ∧
    (topOf (slowStep st r)).key = (topOf st).key := by
  have hne : st.counters ≠ [] := alignedK_ne st P hA
  have hnoop : setPfx st r.key = st := alignedK_noop st P r.key hA hsp
  have heq : slowStep st r = slowLeafRep (addTop st r) r := by
    unfold slowStep
    rw [if_neg (by simp [hc]), hnoop]
  have hAS := addTop_steps st r hne
  refine ⟨heq, ?_, ?_, ?_, ?_⟩
  · rw [heq, keysOf_congr _ _ (slowLeafRep_counters (addTop st r) r),
      addTop_keysOf st r hne]
  · rw [heq, slowLeafRep_sep, hAS.sep_eq]
  · rw [heq, slowLeafRep_depth, hAS.dep_eq]
  · rw [heq, topOf_key_of_counters_eq _ _ (slowLeafRep_counters (addTop st r) r),
      addTop_topKey st r hne]

theorem slowRecs_append : ∀ (a b : List Prefix) (st : S3Counter),
    slowRecs st (a ++ b) = slowRecs (slowRecs st a) b := by
  intro a
  induction a with
  | nil =>
    intro b st
    rfl
  | cons d ds ih =>
    intro b st
    show slowRecs (slowStep st d) (ds ++ b) = _
    rw [ih b (slowStep st d)]
    rfl

theorem slowRecs_inv : ∀ (l : List Prefix) (st : S3Counter) (P : List (List Char)),
    AlignedK st P →
    (∀ r ∈ l, spParts st.separator st.depth r.key = P) →
    (∀ r ∈ l, cmpP (topOf st) r st.depth st.separator = false) →
    AlignedK (slowRecs st l) P ∧
    (slowRecs st l).separator = st.separator ∧
    (slowRecs st l).depth = st.depth ∧
    (topOf (slowRecs st l)).key = (topOf st).key := by
  intro l
  induction l with
  | nil =>
    intro st P hA hsp hc
    exact ⟨hA, rfl, rfl, rfl⟩
  | cons r rs ih =>
    intro st P hA hsp hc
    obtain ⟨heq, hk, hs, hd, ht⟩ := slowStep_inv st r P hA
      (hsp r (List.mem_cons_self r rs)) (hc r (List.mem_cons_self r rs))
    have hA2 : AlignedK (slowStep st r) P := alignedK_of st _ P hA hk hs
    have hsp2 : ∀ x ∈ rs,
        spParts (slowStep st r).separator (slowStep st r).depth x.key = P := by
      intro x hx
      rw [hs, hd]
      exact hsp x (List.mem_cons_of_mem r hx)
    have hc2 : ∀ x ∈ rs,
        cmpP (topOf (slowStep st r)) x (slowStep st r).depth (slowStep st r).separator
          = false := by
      intro x hx
      rw [hs, hd, cmpP_congr _ _ x st.depth st.separator ht]
      exact hc x (List.mem_cons_of_mem r hx)
    obtain ⟨iA, is, idp, it⟩ := ih (slowStep st r) P hA2 hsp2 hc2
    refine ⟨iA, ?_, ?_, ?_⟩
    · rw [show slowRecs st (r :: rs) = slowRecs (slowStep st r) rs from rfl, is, hs]
    · rw [show slowRecs st (r :: rs) = slowRecs (slowStep st r) rs from rfl, idp, hd]
    · rw [show slowRecs st (r :: rs) = slowRecs (slowStep st r) rs from rfl, it, ht]

theorem singlesSlowAux : ∀ (l : List Prefix) (st : S3Counter) (P : List (List Char)),
    AlignedK st P →
    (∀ r ∈ l, spParts st.separator st.depth r.key = P) →
    (∀ r ∈ l, cmpP (topOf st) r st.depth st.separator = false) →
    foldSingles st l = some (slowRecs st l) := by
  intro l
  induction l with
  | nil =>
    intro st P hA hsp hc
    rfl
  | cons r rs ih =>
    intro st P hA hsp hc
    have hne : st.counters ≠ [] := alignedK_ne st P hA
    have hnoop : setPfx st r.key = st :=
      alignedK_noop st P r.key hA (hsp r (List.mem_cons_self r rs))
    have hcr : cmpP (topOf st) r st.depth st.separator = false :=
      hc r (List.mem_cons_self r rs)
    have h1 : countList st [r] = some (slowStep st r) := by
      rw [countList_one st r hne, if_neg (by simp [hcr]), hnoop, if_neg (by simp [hcr])]
    obtain ⟨heq, hk, hs, hd, ht⟩ := slowStep_inv st r P hA
      (hsp r (List.mem_cons_self r rs)) hcr
    have hA2 : AlignedK (slowStep st r) P := alignedK_of st _ P hA hk hs
    have hsp2 : ∀ x ∈ rs,
        spParts (slowStep st r).separator (slowStep st r).depth x.key = P := by
      intro x hx
      rw [hs, hd]
      exact hsp x (List.mem_cons_of_mem r hx)
    have hc2 : ∀ x ∈ rs,
        cmpP (topOf (slowStep st r)) x (slowStep st r).depth (slowStep st r).separator
          = false := by
      intro x hx
      rw [hs, hd, cmpP_congr _ _ x st.depth st.separator ht]
      exact hc x (List.mem_cons_of_mem r hx)
    calc foldSingles st (r :: rs) = foldSingles (slowStep st r) rs := by
          rw [foldSingles, h1]
      _ = some (slowRecs (slowStep st r) rs) := ih (slowStep st r) P hA2 hsp2 hc2
      _ = some (slowRecs st (r :: rs)) := rfl


theorem clAuxSlowA : ∀ (fuel : Nat) (l : List Prefix) (st : S3Counter) (P : List (List Char)),
    l.length ≤ fuel →
    AlignedK st P →
    (∀ r ∈ l, spParts st.separator st.depth r.key = P) →
    (∀ r ∈ l, cmpP (topOf st) r st.depth st.separator = false) →
    clAux fuel st l = some (slowRecs st l) := by
  intro fuel
  induction fuel with
  | zero =>
    intro l st P hfuel hA hsp hc
    have hl : l = [] := List.length_eq_zero.mp (Nat.le_zero.mp hfuel)
    subst hl
    rfl
  | succ fuel ih =>
    intro l st P hfuel hA hsp hc
    cases l with
    | nil => rfl
    | cons d0 ds =>
      have hne := alignedK_ne st P hA
      rw [clAux_unfold fuel st d0 ds hne]
      have hmemL : (d0 :: ds).getLastD d0 ∈ d0 :: ds := by
        rw [List.getLastD_cons]
        exact getLastD_mem ds d0
      have hcL : cmpP (topOf st) ((d0 :: ds).getLastD d0) st.depth st.separator = false :=
        hc _ hmemL
      have hcL2 : cmpP (topOf st) ((d0 :: ds).getLast?.getD d0) st.depth st.separator
          = false := by
        simpa only [List.getLastD_eq_getLast?] using hcL
      rw [if_neg (by simp [hcL2])]
      have hnoop : setPfx st d0.key = st :=
        alignedK_noop st P d0.key hA (hsp d0 (List.mem_cons_self d0 ds))
      rw [hnoop, if_neg (by simp [hcL2])]
      by_cases h8 : 8 < (d0 :: ds).length
      · rw [if_pos h8]
        have hfuel2 : ds.length + 1 ≤ fuel + 1 := by simpa using hfuel
        have h82 : 8 < ds.length + 1 := by simpa using h8
        have htlen : ((d0 :: ds).take ((d0 :: ds).length / 2)).length ≤ fuel := by
          rw [List.length_take]
          simp only [List.length_cons]
          omega
        have hdlen : ((d0 :: ds).drop ((d0 :: ds).length / 2)).length ≤ fuel := by
          rw [List.length_drop]
          simp only [List.length_cons]
          omega
        have ht1 := ih ((d0 :: ds).take ((d0 :: ds).length / 2)) st P htlen hA
          (fun r hr => hsp r (List.take_subset _ (d0 :: ds) hr))
          (fun r hr => hc r (List.take_subset _ (d0 :: ds) hr))
        rw [ht1]
        obtain ⟨hA2, hs2, hd2, ht2⟩ :=
          slowRecs_inv ((d0 :: ds).take ((d0 :: ds).length / 2)) st P hA
            (fun r hr => hsp r (List.take_subset _ (d0 :: ds) hr))
            (fun r hr => hc r (List.take_subset _ (d0 :: ds) hr))
        have ht3 := ih ((d0 :: ds).drop ((d0 :: ds).length / 2))
          (slowRecs st ((d0 :: ds).take ((d0 :: ds).length / 2))) P hdlen hA2
          (fun r hr => by
            rw [hs2, hd2]
            exact hsp r (List.drop_subset _ (d0 :: ds) hr))
          (fun r hr => by
            rw [hs2, hd2, cmpP_congr _ _ r st.depth st.separator ht2]
            exact hc r (List.drop_subset _ (d0 :: ds) hr))
        show clAux fuel (slowRecs st ((d0 :: ds).take ((d0 :: ds).length / 2)))
            ((d0 :: ds).drop ((d0 :: ds).length / 2)) = some (slowRecs st (d0 :: ds))
        rw [ht3, ← slowRecs_append, List.take_append_drop]
      · rw [if_neg h8]


/-- C2 (amended): for a context-homogeneous batch — every record projecting to
the same truncated directory as the batch's last record under both the
comparison projection and the realignment projection — `count_list` on the
whole batch (fast bulk fold or divide-and-conquer bisection) is exactly the
same state transformation as one `count_list` call per record, so the
subsequent `finalise()` closes identical accumulators.  (The unqualified
sorted-batch claim is refuted by `c2_cex_sorted_batch_differs`.) -/
theorem c2_homog_batch_equals_singles (st : S3Counter) (l : List Prefix)
    (hne : st.counters ≠ [])
    (hhom : Homog st.separator st.depth l (l.getLastD Prefix.dummy)) :
    countList st l = foldSingles st l := by
  cases l with
  | nil => rfl
  | cons d0 ds =>
    have hcc : (d0 :: ds).getLastD d0 = (d0 :: ds).getLastD Prefix.dummy := by
      rw [List.getLastD_cons, List.getLastD_cons]
    have hmemc : (d0 :: ds).getLastD Prefix.dummy ∈ d0 :: ds := by
      rw [List.getLastD_cons]
      exact getLastD_mem ds d0
    obtain ⟨c, hc0⟩ : ∃ c, (d0 :: ds).getLastD Prefix.dummy = c := ⟨_, rfl⟩
    rw [hc0] at hcc hmemc hhom
    have cmp_c : ∀ (t : Prefix), ∀ r ∈ d0 :: ds,
        cmpP t r st.depth st.separator = cmpP t c st.depth st.separator := by
      intro t r hr
      rw [cmpP_via_cKey, cmpP_via_cKey, (hhom r hr).1]
    by_cases h1 : cmpP (topOf st) c st.depth st.separator = true
    · have hall : ∀ r ∈ d0 :: ds, cmpP (topOf st) r st.depth st.separator = true := by
        intro r hr
        rw [cmp_c (topOf st) r hr]
        exact h1
      rw [countList_cons st d0 ds hne, if_pos (by rw [hcc]; exact h1),
        singlesFast (d0 :: ds) st hne hall]
    · have h1f : cmpP (topOf st) c st.depth st.separator = false := by
        simpa using h1
      have hS := setPfx_steps st d0.key hne
      have hne1 : (setPfx st d0.key).counters ≠ [] := hS.ne
      have hA1 : AlignedK (setPfx st d0.key) (spParts st.separator st.depth d0.key) := by
        refine ⟨(keysOf st).headD [], ?_⟩
        rw [setPfx_keys st d0.key hne, hS.sep_eq]
      have hP0 : spParts st.separator st.depth d0.key
          = spParts st.separator st.depth c.key :=
        (hhom d0 (List.mem_cons_self d0 ds)).2
      have hsp1 : ∀ r ∈ d0 :: ds,
          spParts (setPfx st d0.key).separator (setPfx st d0.key).depth r.key
            = spParts st.separator st.depth d0.key := by
        intro r hr
        rw [hS.sep_eq, hS.dep_eq, (hhom r hr).2, hP0]
      by_cases h2 : cmpP (topOf (setPfx st d0.key)) c st.depth st.separator = true
      · have hall1 : ∀ r ∈ d0 :: ds,
            cmpP (topOf (setPfx st d0.key)) r st.depth st.separator = true := by
          intro r hr
          rw [cmp_c _ r hr]
          exact h2
        rw [countList_cons st d0 ds hne, if_neg (by rw [hcc]; simp [h1f]),
          if_pos (by rw [hcc]; exact h2)]
        have hd0 : countList st [d0] = some (addTop (setPfx st d0.key) d0) := by
          rw [countList_one st d0 hne,
            if_neg (by simp [cmp_c (topOf st) d0 (List.mem_cons_self d0 ds), h1f]),
            if_pos (by
              rw [cmp_c (topOf (setPfx st d0.key)) d0 (List.mem_cons_self d0 ds)]
              exact h2)]
        have hAT := addTop_steps (setPfx st d0.key) d0 hne1
        have htr : ∀ x ∈ ds,
            cmpP (topOf (addTop (setPfx st d0.key) d0)) x
              (addTop (setPfx st d0.key) d0).depth
              (addTop (setPfx st d0.key) d0).separator = true := by
          intro x hx
          rw [hAT.dep_eq, hAT.sep_eq, hS.dep_eq, hS.sep_eq,
            cmpP_congr _ _ x st.depth st.separator (addTop_topKey _ d0 hne1)]
          exact hall1 x (List.mem_cons_of_mem d0 hx)
        calc some (fastAdd (setPfx st d0.key) (d0 :: ds))
            = some (fastAdd (addTop (setPfx st d0.key) d0) ds) := rfl
          _ = foldSingles (addTop (setPfx st d0.key) d0) ds := by
              rw [singlesFast ds (addTop (setPfx st d0.key) d0) hAT.ne htr]
          _ = foldSingles st (d0 :: ds) := by
              rw [foldSingles, hd0]
      · have h2f : cmpP (topOf (setPfx st d0.key)) c st.depth st.separator = false := by
          simpa using h2
        have hcall : ∀ r ∈ d0 :: ds,
            cmpP (topOf (setPfx st d0.key)) r (setPfx st d0.key).depth
              (setPfx st d0.key).separator = false := by
          intro r hr
          rw [hS.dep_eq, hS.sep_eq, cmp_c _ r hr]
          exact h2f
        rw [countList_cons st d0 ds hne, if_neg (by rw [hcc]; simp [h1f]),
          if_neg (by rw [hcc]; simp [h2f])]
        have hbatch : (if 8 < (d0 :: ds).length then
              match clAux ds.length (setPfx st d0.key)
                  ((d0 :: ds).take ((d0 :: ds).length / 2)) with
              | none => none
              | some st2 => clAux ds.length st2 ((d0 :: ds).drop ((d0 :: ds).length / 2))
            else some (slowRecs (setPfx st d0.key) (d0 :: ds)))
            = some (slowRecs (setPfx st d0.key) (d0 :: ds)) := by
          by_cases h8 : 8 < (d0 :: ds).length
          · rw [if_pos h8]
            have h82 : 8 < ds.length + 1 := by simpa using h8
            have htlen : ((d0 :: ds).take ((d0 :: ds).length / 2)).length ≤ ds.length := by
              rw [List.length_take]
              simp only [List.length_cons]
              omega
            have hdlen : ((d0 :: ds).drop ((d0 :: ds).length / 2)).length ≤ ds.length := by
              rw [List.length_drop]
              simp only [List.length_cons]
              omega
            have ht1 := clAuxSlowA ds.length ((d0 :: ds).take ((d0 :: ds).length / 2))
              (setPfx st d0.key) (spParts st.separator st.depth d0.key) htlen hA1
              (fun r hr => hsp1 r (List.take_subset _ (d0 :: ds) hr))
              (fun r hr => hcall r (List.take_subset _ (d0 :: ds) hr))
            rw [ht1]
            obtain ⟨hA2, hs2, hd2, ht2⟩ := slowRecs_inv
              ((d0 :: ds).take ((d0 :: ds).length / 2)) (setPfx st d0.key)
              (spParts st.separator st.depth d0.key) hA1
              (fun r hr => hsp1 r (List.take_subset _ (d0 :: ds) hr))
              (fun r hr => hcall r (List.take_subset _ (d0 :: ds) hr))
            have ht3 := clAuxSlowA ds.length ((d0 :: ds).drop ((d0 :: ds).length / 2))
              (slowRecs (setPfx st d0.key) ((d0 :: ds).take ((d0 :: ds).length / 2)))
              (spParts st.separator st.depth d0.key) hdlen hA2
              (fun r hr => by
                rw [hs2, hd2]
                exact hsp1 r (List.drop_subset _ (d0 :: ds) hr))
              (fun r hr => by
                rw [hs2, hd2, cmpP_congr _ _ r (setPfx st d0.key).depth
                  (setPfx st d0.key).separator ht2]
                exact hcall r (List.drop_subset _ (d0 :: ds) hr))
            show clAux ds.length
                (slowRecs (setPfx st d0.key) ((d0 :: ds).take ((d0 :: ds).length / 2)))
                ((d0 :: ds).drop ((d0 :: ds).length / 2))
                = some (slowRecs (setPfx st d0.key) (d0 :: ds))
            rw [ht3, ← slowRecs_append, List.take_append_drop]
          · rw [if_neg h8]
        rw [hbatch]
        have hd0 : countList st [d0] = some (slowStep (setPfx st d0.key) d0) := by
          rw [countList_one st d0 hne,
            if_neg (by simp [cmp_c (topOf st) d0 (List.mem_cons_self d0 ds), h1f]),
            if_neg (by
              simp [cmp_c (topOf (setPfx st d0.key)) d0 (List.mem_cons_self d0 ds), h2f])]
        obtain ⟨heq, hk, hss, hsd, hst⟩ := slowStep_inv (setPfx st d0.key) d0
          (spParts st.separator st.depth d0.key) hA1
          (hsp1 d0 (List.mem_cons_self d0 ds)) (hcall d0 (List.mem_cons_self d0 ds))
        have hA3 : AlignedK (slowStep (setPfx st d0.key) d0)
            (spParts st.separator st.depth d0.key) :=
          alignedK_of _ _ _ hA1 hk hss
        have hsp3 : ∀ x ∈ ds,
            spParts (slowStep (setPfx st d0.key) d0).separator
              (slowStep (setPfx st d0.key) d0).depth x.key
              = spParts st.separator st.depth d0.key := by
          intro x hx
          rw [hss, hsd]
          exact hsp1 x (List.mem_cons_of_mem d0 hx)
        have hc3 : ∀ x ∈ ds,
            cmpP (topOf (slowStep (setPfx st d0.key) d0)) x
              (slowStep (setPfx st d0.key) d0).depth
              (slowStep (setPfx st d0.key) d0).separator = false := by
          intro x hx
          rw [hss, hsd, cmpP_congr _ _ x (setPfx st d0.key).depth
            (setPfx st d0.key).separator hst]
          exact hcall x (List.mem_cons_of_mem d0 hx)
        have hsingles := singlesSlowAux ds (slowStep (setPfx st d0.key) d0)
          (spParts st.separator st.depth d0.key) hA3 hsp3 hc3
        calc some (slowRecs (setPfx st d0.key) (d0 :: ds))
            = some (slowRecs (slowStep (setPfx st d0.key) d0) ds) := rfl
          _ = foldSingles (slowStep (setPfx st d0.key) d0) ds := hsingles.symm
          _ = foldSingles st (d0 :: ds) := by
              rw [foldSingles, hd0]


/-- C2 counterexample: the batch `[a/x (10 bytes), f (5 bytes)]` is sorted
ascending by key, yet `count_list` on the whole batch reports only the root
accumulator (the fast-path check looks at the last record only, whose
directory matches the root, so both records are bulk-folded into the root),
while one call per record closes an `a/` accumulator as well — a different
set of closed accumulators. -/
theorem c2_cex_sorted_batch_differs :
    recAX.key < recF.key ∧
    (countList exInit [recAX, recF]).map
      (fun s => ((finalise s).log.filter (fun e => evIsRep e)).map evKey)
      = some [['.']] ∧
    (foldSingles exInit [recAX, recF]).map
      (fun s => ((finalise s).log.filter (fun e => evIsRep e)).map evKey)
      = some [['a', '/'], ['.']] := by
  decide

/-- Witness for `c2_homog_batch_equals_singles` at a concrete homogeneous
batch. -/
theorem c2_witness : countList exInit [recAX, recAX] = foldSingles exInit [recAX, recAX] :=
  c2_homog_batch_equals_singles exInit [recAX, recAX] (by decide)
    (by
      intro r hr
      fin_cases hr <;> exact ⟨rfl, rfl⟩)


theorem spParts_length_le (sep : Char) (dep : Int) (k : List Char) (hdep : 0 ≤ dep) :
    ((spParts sep dep k).length : Int) ≤ dep := by
  unfold spParts
  dsimp only
  set parts0 := pySplit sep ((pyRsplit1 sep (sep :: pyLstrip sep k)).headD []) with hp
  set b : Int := min (dep + 1) (parts0.length : Int) with hbdef
  have hb0 : 0 ≤ b := by
    rw [hbdef]
    apply le_min <;> omega
  have hble : b ≤ dep + 1 := by
    rw [hbdef]
    exact min_le_left _ _
  rw [if_neg (by omega)]
  simp only [List.length_drop, List.length_take]
  omega

theorem fastAdd_keysOf : ∀ (l : List Prefix) (st : S3Counter), st.counters ≠ [] →
    keysOf (fastAdd st l) = keysOf st := by
  intro l
  induction l with
  | nil =>
    intro st h
    rfl
  | cons d ds ih =>
    intro st h
    have a := addTop_steps st d h
    calc keysOf (fastAdd st (d :: ds)) = keysOf (fastAdd (addTop st d) ds) := rfl
      _ = keysOf (addTop st d) := ih _ a.ne
      _ = keysOf st := addTop_keysOf st d h

/-- C5 counterexample: in the key-sorted stream `[a/x, f]` fed to `count_list`
as one batch, the record `a/x` has first-1-segment directory `a`, yet the run
closes no accumulator for those segments at all — the only reported
accumulator is the root. -/
theorem c5_cex_no_group_accumulator :
    recAX.key < recF.key ∧
    cKey '/' 1 recAX.key = [['a']] ∧
    (countList exInit [recAX, recF]).map
      (fun s => ((finalise s).log.filter (fun e => evIsRep e)).map evKey)
      = some [['.']] := by
  decide

/-- C5 (amended): depth truncation is applied at realignment, and is correct
there: for rollup depth `D ≥ 0`, `_set_prefix(key)` truncates the key's
directory to at most `D` segments, leaves the stack holding exactly the root
below one open accumulator per truncated segment — the `i`-th carrying
precisely the joined first `i+1` segments as its path — and records folded
without realignment are merged into those open accumulators, growing the
stack total without creating or renaming any accumulator.  The claim's global
form — every group of records sharing the first `D` segments is closed into
exactly one reported accumulator with that path — is false, because a batch
whose last record matches the open context skips realignment entirely (see
the counterexample). -/
theorem c5_depth_truncation_alignment (st : S3Counter) (k : List Char) (l : List Prefix)
    (hne : st.counters ≠ []) (hdep : 0 ≤ st.depth) :
    ((spParts st.separator st.depth k).length : Int) ≤ st.depth ∧
    keysOf (setPfx st k) = (keysOf st).headD [] ::
      alignChain st.separator [] (spParts st.separator st.depth k) ∧
    (∀ i : Nat, i < (spParts st.separator st.depth k).length →
      (alignChain st.separator [] (spParts st.separator st.depth k)).getD i []
        = ((spParts st.separator st.depth k).take (i + 1)).foldl
            (fun a q => a ++ q ++ [st.separator]) []) ∧
    keysOf (fastAdd (setPfx st k) l) = keysOf (setPfx st k) ∧
    stackN (fastAdd (setPfx st k) l) = stackN st + totN l := by
  have hS := setPfx_steps st k hne
  refine ⟨spParts_length_le st.separator st.depth k hdep, setPfx_keys st k hne, ?_, ?_, ?_⟩
  · intro i hi
    exact alignChain_getD st.separator _ [] i hi
  · exact fastAdd_keysOf l (setPfx st k) hS.ne
  · have hF := fastAdd_steps l (setPfx st k) hS.ne
    have h1 := hS.n_eq
    have h2 := hF.n_eq
    simp [totN] at h1
    omega

/-- Witness for `c5_depth_truncation_alignment` at a concrete state, key and
record list. -/
theorem c5_witness :
    ((spParts exInit.separator exInit.depth recAX.key).length : Int) ≤ exInit.depth ∧
    keysOf (setPfx exInit recAX.key) = (keysOf exInit).headD [] ::
      alignChain exInit.separator [] (spParts exInit.separator exInit.depth recAX.key) ∧
    (∀ i : Nat, i < (spParts exInit.separator exInit.depth recAX.key).length →
      (alignChain exInit.separator [] (spParts exInit.separator exInit.depth recAX.key)).getD i []
        = ((spParts exInit.separator exInit.depth recAX.key).take (i + 1)).foldl
            (fun a q => a ++ q ++ [exInit.separator]) []) ∧
    keysOf (fastAdd (setPfx exInit recAX.key) [recF]) = keysOf (setPfx exInit recAX.key) ∧
    stackN (fastAdd (setPfx exInit recAX.key) [recF]) = stackN exInit + totN [recF] :=
  c5_depth_truncation_alignment exInit recAX.key [recF] (by decide) (by decide)

end S3du
